import Mathlib

/-!
# Verification of the `simple_kv` Bitcask-style key-value store

This file gives a shallow embedding, in Lean 4, of the storage engine in
`src/simple_kv/src/engine/kvs.rs`, of the segment-directory listing
(`get_sorted_gen_list`), of the TCP request loop in
`src/simple_kv/src/kv_server.rs`, and of the shared-queue worker pool in
`src/simple_kv/src/thread_pool/shared.rs`, together with theorems settling
the specification's claims about them.

Modelling conventions:
* Rust `u64` quantities (generation numbers, byte offsets, lengths, the
  stale-byte counter) are modelled as `Nat`.  All of them are sums of byte
  counts of data actually written, so 64-bit overflow is unreachable and is
  not modelled.
* File contents are modelled at record granularity: a segment is the list of
  `Cmd` records appended to it, and byte offsets are recovered from the
  concrete serde_json encoding (`cmdBytes`/`encLen` below).  Reading
  `len` bytes at offset `pos` and decoding them succeeds exactly when `pos`
  is a record boundary and `len` is that record's encoded byte length; this
  matches `serde_json::from_reader` over a `take(len)` handle, which fails on
  both truncated input and trailing bytes.
* The engine is verified in its sequential semantics (one operation at a
  time), matching the claims' "sequential execution" reading; the background
  compactor is modelled as a step that consumes one element of the
  writer-to-compactor channel (`pending`).
* Per-thread reader-handle caches (`KvStoreReader.readers`) are a performance
  cache keyed by generation and are semantically transparent for sequential
  reads (a handle is reopened on demand); reads are modelled directly against
  the directory contents.
-/

namespace SimpleKv

/-! ## Command records and their serde_json encoding

From `engine/kvs.rs`:
```
enum Cmd {
    Set { key: String, value: String },
    Rm { key: String },
}
```
serialized by `serde_json::to_writer` as `{"Set":{"key":K,"value":V}}` and
`{"Rm":{"key":K}}`, abutted without separators.
-/

/-- The two log record variants of `engine/kvs.rs` (`Cmd::Set`, `Cmd::Rm`). -/
inductive Cmd where
  | Set (key value : String)
  | Rm (key : String)
deriving DecidableEq, Repr

/-- Lower-case hexadecimal digit, as used by serde_json's `\u00XX` escapes. -/
def hexDigit (n : Nat) : Char :=
  if n < 10 then Char.ofNat (48 + n) else Char.ofNat (87 + n)

/-- serde_json's escaping of a single character inside a JSON string:
`"` and `\` get a backslash, the five short control escapes are used for
backspace, tab, newline, form feed and carriage return, any other control
character becomes `\u00XX`, and everything else is emitted verbatim. -/
def escChar (c : Char) : List Char :=
  if c = Char.ofNat 34 then [Char.ofNat 92, Char.ofNat 34]
  else if c = Char.ofNat 92 then [Char.ofNat 92, Char.ofNat 92]
  else if c = Char.ofNat 8 then [Char.ofNat 92, Char.ofNat 98]
  else if c = Char.ofNat 9 then [Char.ofNat 92, Char.ofNat 116]
  else if c = Char.ofNat 10 then [Char.ofNat 92, Char.ofNat 110]
  else if c = Char.ofNat 12 then [Char.ofNat 92, Char.ofNat 102]
  else if c = Char.ofNat 13 then [Char.ofNat 92, Char.ofNat 114]
  else if c.toNat < 32 then
    [Char.ofNat 92, Char.ofNat 117, Char.ofNat 48, Char.ofNat 48,
     hexDigit (c.toNat / 16), hexDigit (c.toNat % 16)]
  else [c]

/-- A JSON string literal: quote, escaped characters, quote. -/
def jsonString (s : String) : List Char :=
  Char.ofNat 34 :: (s.data.flatMap escChar) ++ [Char.ofNat 34]

/-- The exact character stream serde_json emits for one `Cmd` record. -/
def encodeCmd : Cmd → List Char
  | Cmd.Set k v =>
      "\x7b\"Set\":\x7b\"key\":".data ++ jsonString k
        ++ ",\"value\":".data ++ jsonString v ++ "\x7d\x7d".data
  | Cmd.Rm k =>
      "\x7b\"Rm\":\x7b\"key\":".data ++ jsonString k ++ "\x7d\x7d".data

/-- UTF-8 encoding of one character (the on-disk bytes; serde_json writes
non-ASCII characters raw). -/
def utf8Enc (c : Char) : List Nat :=
  let n := c.toNat
  if n < 128 then [n]
  else if n < 2048 then [192 + n / 64, 128 + n % 64]
  else if n < 65536 then [224 + n / 4096, 128 + (n / 64) % 64, 128 + n % 64]
  else [240 + n / 262144, 128 + (n / 4096) % 64, 128 + (n / 64) % 64, 128 + n % 64]

/-- On-disk bytes of one serialized `Cmd` record. -/
def cmdBytes (c : Cmd) : List Nat :=
  (encodeCmd c).flatMap utf8Enc

/-- Encoded byte length of one record: the amount `writer.pos` advances when
the record is appended (`BufWriterWithPos` counts bytes written). -/
def encLen (c : Cmd) : Nat :=
  (cmdBytes c).length

/-- A record's encoding is never empty (it starts with a brace). -/
theorem encLen_pos (c : Cmd) : 0 < encLen c := by
  cases c <;> simp [encLen, cmdBytes, encodeCmd, utf8Enc, jsonString]

/-! ## Errors

From `kvs_error.rs`.  Variants wrapping a foreign error value
(`Io`, `SerdeError`, `SledErr`, `Utf8Error`) carry that error's display
string, which is what the server formats into responses. -/

/-- The `KvsError` enum of `kvs_error.rs`. -/
inductive KvsError where
  | Io (msg : String)
  | SerdeError (msg : String)
  | UndefCmdline
  | KeyNotFound
  | ParseEngineNameErr
  | StringErr (msg : String)
  | SledErr (msg : String)
  | Utf8Error (msg : String)
deriving DecidableEq, Repr

/-- The `#[fail(display = ...)]` strings of `kvs_error.rs`. -/
def KvsError.display : KvsError → String
  | .Io m => m
  | .SerdeError m => m
  | .UndefCmdline => "Undefined Command Error"
  | .KeyNotFound => "Key not found"
  | .ParseEngineNameErr => "Parse Engine Name Fail"
  | .StringErr m => m
  | .SledErr m => "sled error: " ++ m
  | .Utf8Error m => "UTF-8 error: " ++ m

/-! ## The in-memory index

`key_gen_map: Arc<SkipMap<String, CmdPos>>` — an ordered map from key to
command position, iterated in ascending key order.  Modelled as an
association list kept sorted by key; Rust's `String` ordering (byte-wise
lexicographic on UTF-8) coincides with codepoint-lexicographic ordering,
which is Lean's `String` order. -/

/-- `CmdPos` of `engine/kvs.rs`: (generation, byte offset, byte length). -/
structure CmdPos where
  gen : Nat
  pos : Nat
  len : Nat
deriving DecidableEq, Repr

/-- Rust's `Ord` on `String` (byte-wise lexicographic on UTF-8, which agrees
with codepoint-lexicographic order), at character-list level. -/
def charsLt : List Char → List Char → Bool
  | _, [] => false
  | [], _ :: _ => true
  | a :: as, b :: bs =>
    a.toNat < b.toNat || (a.toNat == b.toNat && charsLt as bs)

/-- Rust's `String` ordering, used by the `SkipMap` key order. -/
def keyLt (a b : String) : Bool :=
  charsLt a.data b.data

/-- The index: a key-sorted association list modelling the skip map. -/
abbrev Index := List (String × CmdPos)

/-- Point lookup (`SkipMap::get`). -/
def idxGet : Index → String → Option CmdPos
  | [], _ => none
  | (k', p') :: rest, k => if k = k' then some p' else idxGet rest k

/-- `SkipMap::contains_key`. -/
def idxContains (i : Index) (k : String) : Bool :=
  (idxGet i k).isSome

/-- Insert/overwrite (`SkipMap::insert`), keeping the list key-sorted. -/
def idxInsert : Index → String → CmdPos → Index
  | [], k, p => [(k, p)]
  | (k', p') :: rest, k, p =>
    if keyLt k k' then (k, p) :: (k', p') :: rest
    else if k = k' then (k, p) :: rest
    else (k', p') :: idxInsert rest k p

/-- Removal (`SkipMap::remove`). -/
def idxRemove : Index → String → Index
  | [], _ => []
  | (k', p') :: rest, k => if k = k' then rest else (k', p') :: idxRemove rest k

/-! ## The segment directory

A directory is modelled as an association list from generation number to the
list of records appended to that generation's `<gen>.log` file, in the order
the files were created (which for reachable states is ascending generation).
-/

/-- Directory contents: generation number to that segment's records. -/
abbrev Files := List (Nat × List Cmd)

/-- The bytes of a segment file: its records' encodings, abutted. -/
def segBytes (seg : List Cmd) : List Nat :=
  seg.flatMap cmdBytes

/-- Look up a segment by generation (opening `<gen>.log`). -/
def lookupFile : Files → Nat → Option (List Cmd)
  | [], _ => none
  | (g, seg) :: rest, gen => if gen = g then some seg else lookupFile rest gen

/-- Append one record to the segment of generation `gen`
(`serde_json::to_writer` on that generation's append handle, then `flush`). -/
def appendCmd : Files → Nat → Cmd → Files
  | [], _, _ => []
  | (g0, seg) :: rest, gen, c =>
    (if g0 = gen then (g0, seg ++ [c]) else (g0, seg)) :: appendCmd rest gen c

/-- `new_log_file`: open `<gen>.log` with `create | append | write`.  Returns
the (possibly extended) directory and the writer's starting position, which
is the existing file length (0 for a fresh file). -/
def newLogFile (files : Files) (gen : Nat) : Files × Nat :=
  match lookupFile files gen with
  | some seg => (files, (segBytes seg).length)
  | none => (files ++ [(gen, [])], 0)

/-! ## Engine state

The state gathers the fields of `KvStoreWriter` (`writer.pos`, `cur_gen`,
`compaction_size`, `compaction_threshold`), the shared index, the directory
contents, the reader pool's `safe_point`, and the writer-to-compactor
channel (`sender`/`rx`) as a FIFO list of pending compaction generations. -/

/-- `COMPACTION`: the hard-coded compaction threshold (1 MiB). -/
def COMPACTION : Nat := 1024 * 1024

/-- The sequential state of the `KvStore` engine. -/
structure KvState where
  files : Files
  index : Index
  curGen : Nat
  writerPos : Nat
  compactionSize : Nat
  compactionThreshold : Nat
  safePoint : Nat
  pending : List Nat
deriving DecidableEq, Repr

/-- The compaction-trigger block shared by `KvStoreWriter::set` and
`KvStoreWriter::remove`: if the stale-byte counter exceeds the threshold,
pick `compaction_gen = cur_gen + 1`, move the writer to `cur_gen + 2`
(opening that log file), reset the counter to 0, and send `compaction_gen`
to the background thread. -/
def maybeRotate (s : KvState) : KvState :=
  if s.compactionSize > s.compactionThreshold then
    let compactionGen := s.curGen + 1
    let fw := newLogFile s.files (s.curGen + 2)
    { s with
      curGen := s.curGen + 2
      files := fw.1
      writerPos := fw.2
      compactionSize := 0
      pending := s.pending ++ [compactionGen] }
  else s

/-- The body of `KvStoreWriter::set` before the compaction-trigger check:
append the `Set` record at `pos = writer.pos`, flush, charge the superseded
entry's length (if any) to the stale-byte counter, and index the key at
`(cur_gen, pos, writer.pos - pos)`. -/
def setMid (s : KvState) (key value : String) : KvState :=
  let cmd := Cmd.Set key value
  let pos := s.writerPos
  let files := appendCmd s.files s.curGen cmd
  let newPos := pos + encLen cmd
  let csize :=
    match idxGet s.index key with
    | some old => s.compactionSize + old.len
    | none => s.compactionSize
  let index := idxInsert s.index key ⟨s.curGen, pos, newPos - pos⟩
  { s with files, index, writerPos := newPos, compactionSize := csize }

/-- `KvStoreWriter::set` = the append/index step followed by the
compaction-trigger check.  The only failure paths in the source are I/O
errors, which the model does not produce. -/
def setOp (s : KvState) (key value : String) : KvState :=
  maybeRotate (setMid s key value)

/-- The body of a successful `KvStoreWriter::remove` before the trigger
check, given the entry `old` it displaces: append a `Rm` record, flush, drop
the index entry, and charge both the removed entry's length and the
tombstone's length to the stale-byte counter. -/
def removeMid (s : KvState) (key : String) (old : CmdPos) : KvState :=
  let cmd := Cmd.Rm key
  let pos := s.writerPos
  let files := appendCmd s.files s.curGen cmd
  let newPos := pos + encLen cmd
  let csize := s.compactionSize + old.len + (newPos - pos)
  let index := idxRemove s.index key
  { s with files, index, writerPos := newPos, compactionSize := csize }

/-- `KvStoreWriter::remove`: if the key is absent, fail with `KeyNotFound`
without touching the state; otherwise run the tombstone step and the
compaction-trigger check.  Returns the state after the call together with
the call's `Result<()>`. -/
def removeOp (s : KvState) (key : String) : KvState × Except KvsError Unit :=
  match idxGet s.index key with
  | none => (s, .error .KeyNotFound)
  | some old => (maybeRotate (removeMid s key old), .ok ())

/-- Locate the record starting at byte offset `pos` in a segment.  Because
records abut, offset `pos` is a record boundary exactly when it is the sum
of the encoded lengths of a prefix of the segment's records. -/
def recordAt : List Cmd → Nat → Option Cmd
  | [], _ => none
  | c :: rest, pos =>
    if pos = 0 then some c
    else if pos < encLen c then none
    else recordAt rest (pos - encLen c)

/-- `KvStoreReader::read_command`: open (or reuse) the handle for
`cmd_pos.gen`, seek to `cmd_pos.pos`, take `cmd_pos.len` bytes, and decode
one record.  Decoding succeeds exactly when those bytes are one whole
record's encoding (`serde_json::from_reader` rejects both truncated input
and trailing bytes). -/
def readCommand (files : Files) (cp : CmdPos) : Except KvsError Cmd :=
  match lookupFile files cp.gen with
  | none => .error (.Io "No such file or directory")
  | some seg =>
    match recordAt seg cp.pos with
    | some c =>
        if encLen c = cp.len then .ok c
        else .error (.SerdeError "invalid record slice")
    | none => .error (.SerdeError "invalid record slice")

/-- `KvStore::get`: consult the index; on a hit read the record back and
return its value, failing with `UndefCmdline` if the located record is not a
`Set`; on a miss return `None`. -/
def getOp (s : KvState) (key : String) : Except KvsError (Option String) :=
  match idxGet s.index key with
  | none => .ok none
  | some cp =>
    match readCommand s.files cp with
    | .ok (Cmd.Set _ v) => .ok (some v)
    | .ok (Cmd.Rm _) => .error .UndefCmdline
    | .error e => .error e

/-! ## The background compactor

`spawn_background` in `engine/kvs.rs` loops on `rx.recv()`.  For one
received `compaction_gen` it opens a fresh writer for that generation,
copies every live record there (flushing each), repoints each index entry at
`(compaction_gen, new_pos, old_len)` with `new_pos` advancing by the old
length, raises the safe point to `compaction_gen`, closes stale reader
handles, and unlinks every `<gen>.log` with `gen < compaction_gen`. -/

/-- The per-entry loop of the compactor: fold over the index entries (in the
skip map's iteration order, i.e. the order of the sorted list), reading each
record through its current position and appending it to the compaction
segment.  Returns the updated directory and index.  `?` on `read_command`
propagates a read failure out of the loop. -/
def compactEntries (compactionGen : Nat) :
    List (String × CmdPos) → Files → Index → Nat →
    Except KvsError (Files × Index)
  | [], files, index, _ => .ok (files, index)
  | (k, cp) :: rest, files, index, newPos =>
    match readCommand files cp with
    | .error e => .error e
    | .ok cmd =>
      let files := appendCmd files compactionGen cmd
      let index := idxInsert index k ⟨compactionGen, newPos, cp.len⟩
      compactEntries compactionGen rest files index (newPos + cp.len)

/-- One iteration of the compactor's `while let Ok(compaction_gen)` loop:
process a single compaction generation.  File unlink failures are logged and
ignored in the source; the model removes the stale files. -/
def compactGen (s : KvState) (compactionGen : Nat) : Except KvsError KvState :=
  let fw := newLogFile s.files compactionGen
  match compactEntries compactionGen s.index fw.1 s.index 0 with
  | .error e => .error e
  | .ok (files, index) =>
    .ok { s with
      files := files.filter (fun gs => decide (compactionGen ≤ gs.1))
      index := index
      safePoint := compactionGen }

/-- The compactor consumes the channel in FIFO order: receive the next
pending compaction generation (if any) and process it. -/
def compactOp (s : KvState) : Except KvsError KvState :=
  match s.pending with
  | [] => .ok s
  | cg :: rest =>
    match compactGen { s with pending := rest } cg with
    | .error e => .error e
    | .ok s' => .ok s'

/-! ## Load-time replay and `KvStore::open` -/

/-- `load` in `engine/kvs.rs`, one segment: stream the records of
`<gen>.log` in order, tracking byte offsets.  On `Set`, charge any
superseded entry's length to the returned stale-byte total and index the key
at `(gen, pos, new_pos - pos)`; on `Rm`, drop the entry (charging its length
if present) and charge the tombstone's own length. -/
def loadRecs (gen : Nat) :
    List Cmd → Nat → Index → Nat → Index × Nat
  | [], _, index, csize => (index, csize)
  | c :: rest, pos, index, csize =>
    let newPos := pos + encLen c
    match c with
    | Cmd.Set k _ =>
      let csize' :=
        match idxGet index k with
        | some old => csize + old.len
        | none => csize
      loadRecs gen rest newPos (idxInsert index k ⟨gen, pos, newPos - pos⟩) csize'
    | Cmd.Rm k =>
      let csize' :=
        match idxGet index k with
        | some old => csize + old.len
        | none => csize
      loadRecs gen rest newPos (idxRemove index k) (csize' + (newPos - pos))

/-- `load` over one whole segment, from offset 0 and the given accumulators. -/
def loadSeg (gen : Nat) (recs : List Cmd) (acc : Index × Nat) : Index × Nat :=
  loadRecs gen recs 0 acc.1 acc.2

/-- Insertion into a sorted list of naturals (ascending). -/
def insertSorted (n : Nat) : List Nat → List Nat
  | [] => [n]
  | m :: rest => if n ≤ m then n :: m :: rest else m :: insertSorted n rest

/-- `Vec::sort_unstable` on the collected generation numbers (duplicates are
indistinguishable, so stability is irrelevant). -/
def sortNats : List Nat → List Nat
  | [] => []
  | n :: rest => insertSorted n (sortNats rest)

/-- The replay loop of `KvStore::open`: enumerate generations in ascending
order and fold `load` over them, accumulating the index and the stale-byte
counter. -/
def replayAll (dir : Files) : Index × Nat :=
  (sortNats (dir.map Prod.fst)).foldl
    (fun acc g =>
      match lookupFile dir g with
      | some recs => loadSeg g recs acc
      | none => acc)
    ([], 0)

/-- `KvStore::open` on a directory: replay every segment in ascending
generation, set `cur_gen` to the largest generation plus one, open its log
file for appending, seed the stale-byte counter from replay, initialize the
safe point to 0, and start the compactor with an empty channel. -/
def openOp (dir : Files) : KvState :=
  let ic := replayAll dir
  let gens := sortNats (dir.map Prod.fst)
  let curGen := gens.getLast?.getD 0 + 1
  let fw := newLogFile dir curGen
  { files := fw.1
    index := ic.1
    curGen := curGen
    writerPos := fw.2
    compactionSize := ic.2
    compactionThreshold := COMPACTION
    safePoint := 0
    pending := [] }

/-! ## Well-formedness and the location invariant (I1)

`Wf` collects the structural facts that hold for every reachable engine
state; `IndexInv` is the spec's invariant I1: every index entry locates a
decodable `Set` record for its key at the recorded generation, offset and
length. -/

/-- The record a `CmdPos` points at, if its offset is a record boundary of
an existing segment. -/
def entryCmd (files : Files) (cp : CmdPos) : Option Cmd :=
  (lookupFile files cp.gen).bind (fun seg => recordAt seg cp.pos)

/-- An index entry for key `k` is well-placed: it points at a `Set` record
for `k` whose encoded length matches the entry's length. -/
def entryOk (files : Files) (k : String) (cp : CmdPos) : Prop :=
  match entryCmd files cp with
  | some (Cmd.Set k2 v) => k2 = k ∧ encLen (Cmd.Set k2 v) = cp.len
  | _ => False

/-- Executable form of `entryOk`. -/
def entryOkB (files : Files) (k : String) (cp : CmdPos) : Bool :=
  match entryCmd files cp with
  | some (Cmd.Set k2 v) => k2 == k && encLen (Cmd.Set k2 v) == cp.len
  | _ => false

theorem entryOkB_iff (files : Files) (k : String) (cp : CmdPos) :
    entryOkB files k cp = true ↔ entryOk files k cp := by
  unfold entryOkB entryOk
  rcases entryCmd files cp with _ | c
  · simp
  · cases c <;> simp

instance (files : Files) (k : String) (cp : CmdPos) :
    Decidable (entryOk files k cp) :=
  decidable_of_iff _ (entryOkB_iff files k cp)

/-- The writer's active segment exists and `writer.pos` equals its byte
length (segments are opened in append mode). -/
def activeOk (s : KvState) : Prop :=
  match lookupFile s.files s.curGen with
  | some seg => s.writerPos = (segBytes seg).length
  | none => False

/-- Executable form of `activeOk`. -/
def activeOkB (s : KvState) : Bool :=
  match lookupFile s.files s.curGen with
  | some seg => s.writerPos == (segBytes seg).length
  | none => false

theorem activeOkB_iff (s : KvState) : activeOkB s = true ↔ activeOk s := by
  unfold activeOkB activeOk
  rcases lookupFile s.files s.curGen with _ | seg <;> simp

instance (s : KvState) : Decidable (activeOk s) :=
  decidable_of_iff _ (activeOkB_iff s)

/-- Structural well-formedness of a reachable engine state: segment
generations are bounded by `cur_gen` and distinct, the active segment is
open at its end, pending compaction generations are increasing, below
`cur_gen`, and not yet on disk, and the index is sorted by key. -/
def Wf (s : KvState) : Prop :=
  (∀ p ∈ s.files, p.1 ≤ s.curGen) ∧
  (s.files.map Prod.fst).Nodup ∧
  activeOk s ∧
  s.pending.Pairwise (· < ·) ∧
  (∀ cg ∈ s.pending, cg < s.curGen ∧ lookupFile s.files cg = none) ∧
  s.index.Pairwise (fun a b => keyLt a.1 b.1)

/-- Invariant I1 of the spec, over the whole index. -/
def IndexInv (s : KvState) : Prop :=
  ∀ p ∈ s.index, entryOk s.files p.1 p.2

instance (s : KvState) : Decidable (Wf s) := by
  unfold Wf; infer_instance

instance (s : KvState) : Decidable (IndexInv s) := by
  unfold IndexInv; infer_instance

/-! ## Operation sequences (for the replay-equivalence claim) -/

/-- A mutating engine call. -/
inductive KvOp where
  | set (key value : String)
  | remove (key : String)
deriving DecidableEq, Repr

/-- Apply one mutating call; a failed `remove` leaves the state unchanged
and writes no record. -/
def applyOp (s : KvState) : KvOp → KvState
  | .set k v => setOp s k v
  | .remove k => (removeOp s k).1

/-- Execute a sequence of live `set`/`remove` calls. -/
def execOps (s : KvState) : List KvOp → KvState
  | [] => s
  | op :: rest => execOps (applyOp s op) rest

/-- Replay the directory's segments in list order (for a directory whose
segments are listed in ascending generation order this is exactly the replay
loop of `KvStore::open`). -/
def replaySeq : Files → Index × Nat → Index × Nat
  | [], acc => acc
  | (g, recs) :: rest, acc => replaySeq rest (loadSeg g recs acc)

/-- Written from the compaction claim's words: each iterated entry,
in iteration order, is repointed at `(compaction_gen, new_offset, same
length)` where `new_offset` is the sum of the lengths of the entries written
before it. -/
def repointed (cg : Nat) (off : Nat) : Index → Index
  | [] => []
  | (k, cp) :: rest => (k, ⟨cg, off, cp.len⟩) :: repointed cg (off + cp.len) rest

/-! ## `get_sorted_gen_list`

```
read_dir(path)
  .filter(|path| path.is_file() && path.extension() == Some("log"))
  .flat_map(|path| file_name.to_str()
      .map(|str| str.trim_end_matches(".log").parse::<u64>()))
  .flatten().collect();
gen_list.sort_unstable();
```
A directory listing is modelled as a list of `(file name, is_file)` pairs.
-/

/-- The characters after the last occurrence of `c`, if any. -/
def afterLast (c : Char) : List Char → Option (List Char)
  | [] => none
  | x :: xs =>
    match afterLast c xs with
    | some r => some r
    | none => if x = c then some xs else none

/-- Rust's `Path::extension` on a file name: the portion after the final
`.`, except that a name with no `.`, or beginning with `.` and containing no
other `.`, has no extension.  Equivalently: the portion after the last dot,
provided some dot occurs past the first character. -/
def extension (name : String) : Option String :=
  match name.data with
  | [] => none
  | _ :: rest => (afterLast (Char.ofNat 46) rest).map List.asString

/-- `str::trim_end_matches(".log")` on a reversed character list: repeatedly
strip the (reversed) suffix `".log"` from the front. -/
def stripLogsRev : List Char → List Char
  | 'g' :: 'o' :: 'l' :: '.' :: rest => stripLogsRev rest
  | l => l

/-- `str::trim_end_matches(".log")`: remove every trailing repetition of
`".log"`. -/
def trimEndLog (l : List Char) : List Char :=
  (stripLogsRev l.reverse).reverse

/-- Accumulate decimal digits; fails on the first non-digit. -/
def parseDigits : List Char → Nat → Option Nat
  | [], acc => some acc
  | c :: rest, acc =>
    if 48 ≤ c.toNat ∧ c.toNat ≤ 57 then
      parseDigits rest (acc * 10 + (c.toNat - 48))
    else none

/-- Rust's `str::parse::<u64>`: an optional leading `+`, then one or more
decimal digits whose value fits in 64 bits. -/
def parseU64 (l : List Char) : Option Nat :=
  let digits := match l with
    | '+' :: rest => rest
    | _ => l
  match digits with
  | [] => none
  | _ =>
    match parseDigits digits 0 with
    | some n => if n < 2 ^ 64 then some n else none
    | none => none

/-- The contribution of one directory entry in `get_sorted_gen_list`: keep
file entries whose extension is `log`, strip every trailing `".log"`, and
parse the remainder as a `u64`. -/
def parseGenEntry (e : String × Bool) : Option Nat :=
  if e.2 ∧ extension e.1 = some "log" then parseU64 (trimEndLog e.1.data)
  else none

/-- `get_sorted_gen_list`: collect the parsed generation numbers and sort
them ascending. -/
def getSortedGenList (dir : List (String × Bool)) : List Nat :=
  sortNats (dir.filterMap parseGenEntry)

/-- Strip exactly one trailing `".log"` (input reversed), if present. -/
def stripOneLogRev : List Char → Option (List Char)
  | 'g' :: 'o' :: 'l' :: '.' :: rest => some rest
  | _ => none

/-- Written from the claim's words: an entry contributes `n` exactly when it
is a file whose name is a u64 followed by a **single** `".log"` suffix. -/
def claimGenEntry (e : String × Bool) : Option Nat :=
  if e.2 then (stripOneLogRev e.1.data.reverse).bind (fun r => parseU64 r.reverse)
  else none

/-- The claim's reading of the listing: the u64s of names `<u64>.log`,
sorted ascending, everything else ignored. -/
def claimGenList (dir : List (String × Bool)) : List Nat :=
  sortNats (dir.filterMap claimGenEntry)

/-- Written from the amended claim's words: an entry contributes `n` exactly
when it is a file whose name is a u64 followed by **one or more** `".log"`
suffixes (the code's `trim_end_matches(".log")` removes all of them). -/
def amendedGenEntry (e : String × Bool) : Option Nat :=
  if e.2 then
    (stripOneLogRev e.1.data.reverse).bind
      (fun r => parseU64 (stripLogsRev r).reverse)
  else none

/-- The amended listing specification, sorted ascending. -/
def amendedGenList (dir : List (String × Bool)) : List Nat :=
  sortNats (dir.filterMap amendedGenEntry)

/-! ## The request server (`kv_server.rs`)

The `Request`/`Response` wire types come from the crate's `protocol` module,
which is declared in `lib.rs` but whose file is not part of the sources.
Modelled from the spec: requests `Get{key}`, `Set{key,value}`,
`Remove{key}`; responses carry `Ok` payloads or the engine error's display
string. -/

/-- Modelled from the spec: the `protocol` module's `Request` enum (the
module's source file is absent; only `kv_server.rs`/`kv_client.rs` use it). -/
inductive Request where
  | Get (key : String)
  | Set (key value : String)
  | Remove (key : String)
deriving DecidableEq, Repr

/-- Modelled from the spec: the `protocol` module's `Response` enum, with
each variant's `Err` carrying the formatted engine error. -/
inductive Response where
  | GetOk (value : Option String)
  | GetErr (msg : String)
  | SetOk
  | SetErr (msg : String)
  | RemoveOk
  | RemoveErr (msg : String)
deriving DecidableEq, Repr

/-- The dispatch `match req` inside `KvServer::serve`: run the engine
operation and encode its result, converting errors to display strings. -/
def dispatch (s : KvState) (req : Request) : KvState × Response :=
  match req with
  | .Get k =>
    match getOp s k with
    | .ok v => (s, .GetOk v)
    | .error e => (s, .GetErr e.display)
  | .Set k v => (setOp s k v, .SetOk)
  | .Remove k =>
    match removeOp s k with
    | (s', .ok _) => (s', .RemoveOk)
    | (s', .error e) => (s', .RemoveErr e.display)

/-- `KvServer::serve` on one accepted connection: decode a stream of
requests; `let req: Request = req?` propagates the first decode failure out
of `serve`, abandoning the rest of the stream; each decoded request is
dispatched and its response flushed.  A connection is the list of decode
results its socket yields. -/
def serveConn (s : KvState) :
    List (Except KvsError Request) →
    KvState × List Response × Except KvsError Unit
  | [] => (s, [], .ok ())
  | item :: rest =>
    match item with
    | .error e => (s, [], .error e)
    | .ok req =>
      let sr := dispatch s req
      let tail := serveConn sr.1 rest
      (tail.1, sr.2 :: tail.2.1, tail.2.2)

/-- `KvServer::run`: `for stream in listener.incoming()`.  A failed accept
(`Err(e)`) is logged and the loop continues; a successful accept is served
with `self.serve(tcp)?`, so an error returned by `serve` propagates out of
`run`, ending the loop.  Returns the final engine state, the per-connection
response lists, and `run`'s own `Result<()>`. -/
def runServer (s : KvState) :
    List (Except String (List (Except KvsError Request))) →
    KvState × List (List Response) × Except KvsError Unit
  | [] => (s, [], .ok ())
  | .error _ :: rest => runServer s rest
  | .ok conn :: rest =>
    match serveConn s conn with
    | (s', resps, .ok _) =>
      let tail := runServer s' rest
      (tail.1, resps :: tail.2.1, tail.2.2)
    | (s', resps, .error e) => (s', [resps], .error e)

/-! ## The shared-queue thread pool (`thread_pool/shared.rs`) -/

/-- The outcome of `rx.lock().unwrap().recv()`: a job, or
`RecvError` once the sender is dropped and the buffer drained. -/
inductive RecvOutcome (α : Type) where
  | ok (job : α)
  | disconnected
deriving DecidableEq, Repr

/-- Transcription of the worker's `match job` loop body: whether the body
exits the receive loop afterwards.  In the source the `Ok(f)` arm runs the
job and the `Err(e)` arm logs; **neither arm breaks or returns**, so the
loop continues in both cases. -/
def loopExitsAfter : RecvOutcome Nat → Bool
  | .ok _ => false
  | .disconnected => false

/-- One observable event of a worker iteration. -/
inductive WorkerEvent where
  | ran (job : Nat)
  | loggedDisconnect
deriving DecidableEq, Repr

/-- Run `fuel` iterations of the worker's receive loop after the job sender
has been dropped, with `jobs` still buffered in the channel: `recv` yields
the buffered jobs in order, then `Err(RecvError)` forever.  Returns the
events and whether the loop is still running afterwards. -/
def workerTrace : Nat → List Nat → List WorkerEvent × Bool
  | 0, _ => ([], true)
  | fuel + 1, j :: rest =>
    let t := workerTrace fuel rest
    (.ran j :: t.1, t.2)
  | fuel + 1, [] =>
    if loopExitsAfter .disconnected then ([.loggedDisconnect], false)
    else
      let t := workerTrace fuel []
      (.loggedDisconnect :: t.1, t.2)

/-- The jobs a worker actually executed in a trace. -/
def ranJobs : List WorkerEvent → List Nat
  | [] => []
  | .ran j :: rest => j :: ranJobs rest
  | .loggedDisconnect :: rest => ranJobs rest

/-- Pool state for the panic-resilience claim: the number of live worker
threads, and the jobs that ran to completion.  A job is `(id, panics)`. -/
structure PoolState where
  workers : Nat
  executed : List Nat
deriving DecidableEq, Repr

/-- A worker takes one job from the shared queue and runs `f()`.  If the job
panics, the thread unwinds (one worker lost); unwinding drops the worker's
`RxWrapper`, whose `Drop` impl sees `thread::panicking()` and spawns a fresh
worker on the same receiver (one worker gained).  A normal job simply runs
to completion. -/
def runJob (st : PoolState) (job : Nat × Bool) : PoolState :=
  if job.2 then { st with workers := st.workers - 1 + 1 }
  else { st with executed := st.executed ++ [job.1] }

/-- Sequentialized execution of a submitted job list by a pool created with
`threads` workers (`SharedQueueThreadPool::new` spawns exactly `threads`
receive loops; `spawn` enqueues, and workers drain the queue in order). -/
def runPool (threads : Nat) (jobs : List (Nat × Bool)) : PoolState :=
  jobs.foldl runJob ⟨threads, []⟩

/-- A 1 MiB value (2^20 repetitions of `a`): one overwrite of a key holding
it puts more than `COMPACTION` stale bytes in the log, firing the
compaction trigger. -/
def bigValue : String :=
  String.mk (List.replicate (2 ^ 20) 'a')

/-- Simulation invariant for the replay-equivalence claim: the state is
well-formed, its directory lists segments in ascending generation order with
the active segment last, replaying the directory in order rebuilds exactly
the live index, and — as long as no rotation has occurred (the generation is
still the initial 1) — also the live stale-byte counter. -/
def Sim (s : KvState) : Prop :=
  Wf s ∧
  s.files.Pairwise (fun a b => a.1 < b.1) ∧
  (∃ files0 seg, s.files = files0 ++ [(s.curGen, seg)]) ∧
  (replaySeq s.files ([], 0)).1 = s.index ∧
  (s.curGen = 1 → (replaySeq s.files ([], 0)).2 = s.compactionSize)

/-! ## Lemma kit: the key order -/

theorem charsLt_irrefl : ∀ l : List Char, charsLt l l = false := by
  intro l
  induction l with
  | nil => rfl
  | cons x xs ih => simp [charsLt, ih]

theorem charsLt_trans : ∀ {a b c : List Char},
    charsLt a b = true → charsLt b c = true → charsLt a c = true := by
  intro a
  induction a with
  | nil =>
    intro b c hab hbc
    cases b with
    | nil => simp [charsLt] at hab
    | cons y ys =>
      cases c with
      | nil => simp [charsLt] at hbc
      | cons z zs => simp [charsLt]
  | cons x xs ih =>
    intro b c hab hbc
    cases b with
    | nil => simp [charsLt] at hab
    | cons y ys =>
      cases c with
      | nil => simp [charsLt] at hbc
      | cons z zs =>
        simp only [charsLt, Bool.or_eq_true, Bool.and_eq_true,
          decide_eq_true_eq, beq_iff_eq] at hab hbc ⊢
        rcases hab with h1 | ⟨h1, h2⟩
        · rcases hbc with h3 | ⟨h3, h4⟩
          · exact Or.inl (Nat.lt_trans h1 h3)
          · exact Or.inl (h3 ▸ h1)
        · rcases hbc with h3 | ⟨h3, h4⟩
          · exact Or.inl (h1 ▸ h3)
          · exact Or.inr ⟨h1.trans h3, ih h2 h4⟩

theorem charsLt_connex : ∀ {a b : List Char},
    charsLt a b = false → charsLt b a = false → a = b := by
  intro a
  induction a with
  | nil =>
    intro b hab _
    cases b with
    | nil => rfl
    | cons y ys => simp [charsLt] at hab
  | cons x xs ih =>
    intro b hab hba
    cases b with
    | nil => simp [charsLt] at hba
    | cons y ys =>
      simp only [charsLt, Bool.or_eq_false_iff, Bool.and_eq_false_iff,
        decide_eq_false_iff_not, beq_eq_false_iff_ne, ne_eq] at hab hba
      have hxy : x.toNat = y.toNat := by omega
      rcases hab.2 with h | h
      · exact absurd hxy h
      · rcases hba.2 with h2 | h2
        · exact absurd hxy.symm h2
        · have hx : xs = ys := ih h h2
          have hc : x = y := Char.ext_iff.mpr (UInt32.toNat.inj hxy)
          rw [hx, hc]

theorem keyLt_irrefl (k : String) : keyLt k k = false :=
  charsLt_irrefl k.data

theorem keyLt_trans {a b c : String} (h1 : keyLt a b = true)
    (h2 : keyLt b c = true) : keyLt a c = true :=
  charsLt_trans h1 h2

theorem keyLt_connex {a b : String} (h1 : keyLt a b = false)
    (h2 : keyLt b a = false) : a = b := by
  cases a with
  | mk la =>
    cases b with
    | mk lb => exact congrArg String.mk (charsLt_connex h1 h2)

theorem keyLt_ne {a b : String} (h : keyLt a b = true) : a ≠ b := by
  intro he
  rw [he, keyLt_irrefl] at h
  exact Bool.false_ne_true h

theorem keyLt_of_not_of_ne {a b : String} (h1 : ¬ keyLt a b = true)
    (h2 : a ≠ b) : keyLt b a = true := by
  cases hba : keyLt b a with
  | true => rfl
  | false =>
    exact absurd (keyLt_connex (Bool.not_eq_true _ ▸ h1 : keyLt a b = false) hba) h2

/-! ## Lemma kit: the index -/

theorem idxGet_insert_self (i : Index) (k : String) (p : CmdPos) :
    idxGet (idxInsert i k p) k = some p := by
  induction i with
  | nil => simp [idxInsert, idxGet]
  | cons kp rest ih =>
    obtain ⟨k2, p2⟩ := kp
    by_cases h1 : keyLt k k2 = true
    · simp [idxInsert, h1, idxGet]
    · by_cases h2 : k = k2
      · subst h2
        simp [idxInsert, keyLt_irrefl, idxGet]
      · simp [idxInsert, h1, h2, idxGet, ih]

theorem idxGet_insert_ne (i : Index) {k k2 : String} (p : CmdPos)
    (h : k2 ≠ k) : idxGet (idxInsert i k p) k2 = idxGet i k2 := by
  induction i with
  | nil => simp [idxInsert, idxGet, h]
  | cons kp rest ih =>
    obtain ⟨k3, p3⟩ := kp
    by_cases h1 : keyLt k k3 = true
    · simp [idxInsert, h1, idxGet, h]
    · by_cases h2 : k = k3
      · subst h2
        simp [idxInsert, h1, idxGet, h]
      · by_cases h3 : k2 = k3 <;> simp [idxInsert, h1, h2, idxGet, h3, ih]

theorem mem_idxInsert {q : String × CmdPos} {i : Index} {k : String}
    {p : CmdPos} (h : q ∈ idxInsert i k p) : q = (k, p) ∨ q ∈ i := by
  induction i with
  | nil =>
    rw [idxInsert] at h
    exact Or.inl (List.mem_singleton.mp h)
  | cons kp rest ih =>
    obtain ⟨k2, p2⟩ := kp
    by_cases h1 : keyLt k k2 = true
    · rw [idxInsert, if_pos h1] at h
      exact List.mem_cons.mp h
    · by_cases h2 : k = k2
      · subst h2
        rw [idxInsert, if_neg h1, if_pos rfl] at h
        rcases List.mem_cons.mp h with h | h
        · exact Or.inl h
        · exact Or.inr (List.mem_cons_of_mem _ h)
      · rw [idxInsert, if_neg h1, if_neg h2] at h
        rcases List.mem_cons.mp h with h | h
        · exact Or.inr (by simp [h])
        · rcases ih h with h3 | h3
          · exact Or.inl h3
          · exact Or.inr (List.mem_cons_of_mem _ h3)

theorem mem_idxRemove {q : String × CmdPos} {i : Index} {k : String}
    (h : q ∈ idxRemove i k) : q ∈ i := by
  induction i with
  | nil => simpa [idxRemove] using h
  | cons kp rest ih =>
    obtain ⟨k2, p2⟩ := kp
    by_cases h1 : k = k2
    · simp [idxRemove, h1] at h
      simp [h]
    · simp [idxRemove, h1] at h
      rcases h with h | h
      · simp [h]
      · exact List.mem_cons_of_mem _ (ih h)

theorem idxGet_remove_ne (i : Index) {k k2 : String} (h : k2 ≠ k) :
    idxGet (idxRemove i k) k2 = idxGet i k2 := by
  induction i with
  | nil => simp [idxRemove]
  | cons kp rest ih =>
    obtain ⟨k3, p3⟩ := kp
    by_cases h1 : k = k3
    · subst h1
      simp [idxRemove, idxGet, h]
    · by_cases h2 : k2 = k3 <;> simp [idxRemove, h1, idxGet, h2, ih]

theorem mem_of_idxGet {i : Index} {k : String} {q : CmdPos}
    (h : idxGet i k = some q) : (k, q) ∈ i := by
  induction i with
  | nil => simp [idxGet] at h
  | cons kp rest ih =>
    obtain ⟨k2, p2⟩ := kp
    by_cases h1 : k = k2
    · subst h1
      simp [idxGet] at h
      simp [h]
    · simp [idxGet, h1] at h
      exact List.mem_cons_of_mem _ (ih h)

/-- In a key-sorted index, `idxGet` after `idxRemove` of the same key misses
(sortedness gives key distinctness). -/
theorem idxGet_remove_self {i : Index} {k : String}
    (hs : i.Pairwise (fun a b => keyLt a.1 b.1)) :
    idxGet (idxRemove i k) k = none := by
  induction i with
  | nil => simp [idxRemove, idxGet]
  | cons kp rest ih =>
    obtain ⟨k2, p2⟩ := kp
    rcases List.pairwise_cons.mp hs with ⟨hhead, htail⟩
    by_cases h1 : k = k2
    · subst h1
      rw [idxRemove, if_pos rfl]
      cases hg : idxGet rest k with
      | none => rfl
      | some q =>
        exfalso
        have h5 := hhead _ (mem_of_idxGet hg)
        exact keyLt_ne h5 rfl
    · rw [idxRemove, if_neg h1, idxGet, if_neg h1]
      exact ih htail

theorem pairwise_idxInsert {i : Index} (k : String) (p : CmdPos)
    (hs : i.Pairwise (fun a b => keyLt a.1 b.1)) :
    (idxInsert i k p).Pairwise (fun a b => keyLt a.1 b.1) := by
  induction i with
  | nil => simp [idxInsert]
  | cons kp rest ih =>
    obtain ⟨k2, p2⟩ := kp
    rcases List.pairwise_cons.mp hs with ⟨hhead, htail⟩
    by_cases h1 : keyLt k k2 = true
    · rw [idxInsert, if_pos h1]
      refine List.pairwise_cons.mpr ⟨?_, hs⟩
      intro q hq
      rcases List.mem_cons.mp hq with h | h
      · simpa [h] using h1
      · exact keyLt_trans h1 (hhead _ h)
    · by_cases h2 : k = k2
      · subst h2
        rw [idxInsert, if_neg h1, if_pos rfl]
        exact List.pairwise_cons.mpr ⟨hhead, htail⟩
      · rw [idxInsert, if_neg h1, if_neg h2]
        refine List.pairwise_cons.mpr ⟨?_, ih htail⟩
        intro q hq
        rcases mem_idxInsert hq with h | h
        · rw [h]
          exact keyLt_of_not_of_ne (by simpa using h1) h2
        · exact hhead _ h

theorem pairwise_idxRemove {i : Index} (k : String)
    (hs : i.Pairwise (fun a b => keyLt a.1 b.1)) :
    (idxRemove i k).Pairwise (fun a b => keyLt a.1 b.1) := by
  induction i with
  | nil => simp [idxRemove]
  | cons kp rest ih =>
    obtain ⟨k2, p2⟩ := kp
    rcases List.pairwise_cons.mp hs with ⟨hhead, htail⟩
    by_cases h1 : k = k2
    · rw [idxRemove, if_pos h1]
      exact htail
    · rw [idxRemove, if_neg h1]
      refine List.pairwise_cons.mpr ⟨?_, ih htail⟩
      intro q hq
      exact hhead _ (mem_idxRemove hq)

/-! ## Lemma kit: segments and the directory -/

theorem segBytes_append (a b : List Cmd) :
    segBytes (a ++ b) = segBytes a ++ segBytes b := by
  simp [segBytes]

theorem recordAt_append_of_some {seg : List Cmd} {pos : Nat} {c : Cmd}
    (l : List Cmd) (h : recordAt seg pos = some c) :
    recordAt (seg ++ l) pos = some c := by
  induction seg generalizing pos with
  | nil => simp [recordAt] at h
  | cons c0 rest ih =>
    by_cases h0 : pos = 0
    · simp [recordAt, h0] at h ⊢
      exact h
    · by_cases h1 : pos < encLen c0
      · simp [recordAt, h0, h1] at h
      · simp [recordAt, h0, h1] at h ⊢
        exact ih h

theorem recordAt_at_end (seg : List Cmd) (c : Cmd) (l : List Cmd) :
    recordAt (seg ++ c :: l) (segBytes seg).length = some c := by
  induction seg with
  | nil => simp [segBytes, recordAt]
  | cons c0 rest ih =>
    have hpos : 0 < encLen c0 := encLen_pos c0
    have hlen : (segBytes (c0 :: rest)).length = encLen c0 + (segBytes rest).length := by
      simp [segBytes, encLen]
    rw [List.cons_append, recordAt.eq_def]
    simp only [hlen]
    rw [if_neg (by omega), if_neg (by omega)]
    have : encLen c0 + (segBytes rest).length - encLen c0 = (segBytes rest).length := by
      omega
    rw [this]
    exact ih

/-- The byte-level meaning of `recordAt`: a located record occupies exactly
the bytes `pos .. pos + encLen c` of the segment. -/
theorem slice_of_recordAt {seg : List Cmd} {pos : Nat} {c : Cmd}
    (h : recordAt seg pos = some c) :
    ((segBytes seg).drop pos).take (encLen c) = cmdBytes c := by
  induction seg generalizing pos with
  | nil => simp [recordAt] at h
  | cons c0 rest ih =>
    by_cases h0 : pos = 0
    · simp [recordAt, h0] at h
      subst h
      simp [segBytes, h0, encLen, List.take_append]
    · by_cases h1 : pos < encLen c0
      · simp [recordAt, h0, h1] at h
      · simp only [recordAt, if_neg h0, if_neg (by omega : ¬ pos < encLen c0)] at h
        have hsplit : pos = (cmdBytes c0).length + (pos - encLen c0) := by
          have : encLen c0 = (cmdBytes c0).length := rfl
          omega
        have hdrop : (segBytes (c0 :: rest)).drop pos
            = (segBytes rest).drop (pos - encLen c0) := by
          have hb : segBytes (c0 :: rest) = cmdBytes c0 ++ segBytes rest := by
            simp [segBytes]
          rw [hb, hsplit, List.drop_append]
          congr 1
          have he : encLen c0 = (cmdBytes c0).length := rfl
          omega
        rw [hdrop]
        exact ih h

theorem lookupFile_appendCmd (files : Files) (g : Nat) (c : Cmd) (x : Nat) :
    lookupFile (appendCmd files g c) x
      = (lookupFile files x).map (fun seg => if x = g then seg ++ [c] else seg) := by
  induction files with
  | nil => simp [appendCmd, lookupFile]
  | cons gs rest ih =>
    obtain ⟨g0, seg0⟩ := gs
    by_cases h0 : g0 = g
    · subst h0
      rw [appendCmd, if_pos rfl]
      by_cases hx : x = g0
      · subst hx
        simp [lookupFile]
      · simp [lookupFile, hx, ih]
    · rw [appendCmd, if_neg h0]
      by_cases hx : x = g0
      · have hxg : ¬ (x = g) := by
          rw [hx]
          exact h0
        simp [lookupFile, hx, hxg, h0]
      · simp [lookupFile, hx, ih]

theorem lookupFile_concat (files : Files) (g : Nat) (seg0 : List Cmd) (x : Nat) :
    lookupFile (files ++ [(g, seg0)]) x
      = match lookupFile files x with
        | some s => some s
        | none => if x = g then some seg0 else none := by
  induction files with
  | nil => simp [lookupFile]
  | cons gs rest ih =>
    obtain ⟨g0, s0⟩ := gs
    by_cases hx : x = g0 <;> simp [lookupFile, hx, ih]

theorem lookupFile_none_iff (files : Files) (g : Nat) :
    lookupFile files g = none ↔ g ∉ files.map Prod.fst := by
  induction files with
  | nil => simp [lookupFile]
  | cons gs rest ih =>
    obtain ⟨g0, s0⟩ := gs
    by_cases hx : g = g0 <;> simp [lookupFile, hx, ih]

theorem mem_of_lookupFile {files : Files} {g : Nat} {seg : List Cmd}
    (h : lookupFile files g = some seg) : (g, seg) ∈ files := by
  induction files with
  | nil => simp [lookupFile] at h
  | cons gs rest ih =>
    obtain ⟨g0, s0⟩ := gs
    by_cases hx : g = g0
    · subst hx
      simp [lookupFile] at h
      simp [h]
    · simp [lookupFile, hx] at h
      exact List.mem_cons_of_mem _ (ih h)

theorem gens_appendCmd (files : Files) (g : Nat) (c : Cmd) :
    (appendCmd files g c).map Prod.fst = files.map Prod.fst := by
  induction files with
  | nil => simp [appendCmd]
  | cons gs rest ih =>
    obtain ⟨g0, s0⟩ := gs
    by_cases h0 : g0 = g
    · rw [appendCmd, if_pos h0]
      simp [ih]
    · rw [appendCmd, if_neg h0]
      simp [ih]

theorem lookupFile_filter_none {files : Files} {g : Nat}
    (p : Nat × List Cmd → Bool) (h : lookupFile files g = none) :
    lookupFile (files.filter p) g = none := by
  induction files with
  | nil => simp [lookupFile]
  | cons gs rest ih =>
    obtain ⟨g0, s0⟩ := gs
    by_cases hx : g = g0
    · subst hx
      simp [lookupFile] at h
    · simp [lookupFile, hx] at h
      by_cases hp : p (g0, s0) <;> simp [List.filter, hp, lookupFile, hx, ih h]

theorem lookupFile_filter_some {files : Files} {g : Nat} {seg : List Cmd}
    (p : Nat × List Cmd → Bool) (hnd : (files.map Prod.fst).Nodup)
    (h : lookupFile files g = some seg) (hp : p (g, seg) = true) :
    lookupFile (files.filter p) g = some seg := by
  induction files with
  | nil => simp [lookupFile] at h
  | cons gs rest ih =>
    obtain ⟨g0, s0⟩ := gs
    simp only [List.map_cons, List.nodup_cons] at hnd
    by_cases hx : g = g0
    · subst hx
      simp [lookupFile] at h
      subst h
      simp [List.filter, hp, lookupFile]
    · simp [lookupFile, hx] at h
      by_cases hp0 : p (g0, s0) <;>
        simp [List.filter, hp0, lookupFile, hx, ih hnd.2 h]

/-! ## Lemma kit: the location invariant -/

theorem entryOk_iff {files : Files} {k : String} {cp : CmdPos} :
    entryOk files k cp
      ↔ ∃ seg v, lookupFile files cp.gen = some seg
          ∧ recordAt seg cp.pos = some (Cmd.Set k v)
          ∧ encLen (Cmd.Set k v) = cp.len := by
  unfold entryOk entryCmd
  cases hl : lookupFile files cp.gen with
  | none => simp
  | some seg =>
    cases hr : recordAt seg cp.pos with
    | none => simp [hr]
    | some c =>
      cases c with
      | Set k2 v =>
        simp only [Option.some_bind, hr]
        constructor
        · rintro ⟨hk, hlen⟩
          subst hk
          exact ⟨seg, v, rfl, hr, hlen⟩
        · rintro ⟨seg2, v2, hseg, hrec, hlen⟩
          cases hseg
          rw [hr] at hrec
          cases hrec
          exact ⟨rfl, hlen⟩
      | Rm k2 =>
        simp only [Option.some_bind, hr]
        constructor
        · intro h
          exact absurd h id
        · rintro ⟨seg2, v2, hseg, hrec, hlen⟩
          cases hseg
          rw [hr] at hrec
          cases hrec

theorem entryOk_appendCmd {files : Files} {k : String} {cp : CmdPos}
    (g : Nat) (c : Cmd) (h : entryOk files k cp) :
    entryOk (appendCmd files g c) k cp := by
  rcases entryOk_iff.mp h with ⟨seg, v, hl, hr, hlen⟩
  by_cases hg : cp.gen = g
  · refine entryOk_iff.mpr ⟨seg ++ [c], v, ?_, recordAt_append_of_some _ hr, hlen⟩
    rw [lookupFile_appendCmd, hl]
    simp [hg]
  · refine entryOk_iff.mpr ⟨seg, v, ?_, hr, hlen⟩
    rw [lookupFile_appendCmd, hl]
    simp [hg]

theorem entryOk_concat {files : Files} {k : String} {cp : CmdPos}
    (g : Nat) (seg0 : List Cmd) (h : entryOk files k cp) :
    entryOk (files ++ [(g, seg0)]) k cp := by
  rcases entryOk_iff.mp h with ⟨seg, v, hl, hr, hlen⟩
  refine entryOk_iff.mpr ⟨seg, v, ?_, hr, hlen⟩
  rw [lookupFile_concat, hl]

/-- Appending a file (as `new_log_file` does on rotation) preserves every
existing entry's location. -/
theorem entryOk_newLogFile {files : Files} {k : String} {cp : CmdPos}
    (g : Nat) (h : entryOk files k cp) :
    entryOk (newLogFile files g).1 k cp := by
  unfold newLogFile
  cases lookupFile files g with
  | some seg => exact h
  | none => exact entryOk_concat g [] h

/-! ## Preservation of `Wf` and `IndexInv` by the writer's operations -/

theorem wf_maybeRotate {s : KvState} (h : Wf s) : Wf (maybeRotate s) := by
  unfold maybeRotate
  by_cases hc : s.compactionSize > s.compactionThreshold
  · rw [if_pos hc]
    rcases h with ⟨h1, h2, h3, h4, h5, h6⟩
    have hnone : lookupFile s.files (s.curGen + 2) = none := by
      rw [lookupFile_none_iff]
      intro hmem
      rcases List.mem_map.mp hmem with ⟨p, hp, hfst⟩
      have := h1 p hp
      omega
    have hfw : newLogFile s.files (s.curGen + 2) = (s.files ++ [(s.curGen + 2, [])], 0) := by
      unfold newLogFile
      rw [hnone]
    simp only [hfw]
    refine ⟨?_, ?_, ?_, ?_, ?_, h6⟩
    · intro p hp
      dsimp only at hp ⊢
      rcases List.mem_append.mp hp with hin | hin
      · have := h1 p hin
        omega
      · simp at hin
        simp [hin]
    · simp only [List.map_append, List.map_cons, List.map_nil]
      rw [List.nodup_append]
      refine ⟨h2, List.nodup_singleton _, ?_⟩
      intro a ha hb
      simp at hb
      subst hb
      exact (lookupFile_none_iff _ _).mp hnone ha
    · unfold activeOk
      dsimp only
      rw [lookupFile_concat, hnone]
      simp [segBytes]
    · dsimp only
      rw [List.pairwise_append]
      refine ⟨h4, List.pairwise_singleton _ _, ?_⟩
      intro a ha b hb
      simp at hb
      subst hb
      have := (h5 a ha).1
      omega
    · intro cg hcg
      dsimp only at hcg ⊢
      simp only [List.mem_append, List.mem_singleton] at hcg
      rcases hcg with hin | hin
      · have hlt := (h5 cg hin).1
        refine ⟨by omega, ?_⟩
        rw [lookupFile_concat, (h5 cg hin).2, if_neg (by omega)]
      · subst hin
        refine ⟨by omega, ?_⟩
        have hn1 : lookupFile s.files (s.curGen + 1) = none := by
          rw [lookupFile_none_iff]
          intro hmem
          rcases List.mem_map.mp hmem with ⟨p, hp, hfst⟩
          have := h1 p hp
          omega
        rw [lookupFile_concat, hn1, if_neg (by omega)]
  · rw [if_neg hc]
    exact h

theorem indexInv_maybeRotate {s : KvState} (hI : IndexInv s) :
    IndexInv (maybeRotate s) := by
  unfold maybeRotate
  by_cases hc : s.compactionSize > s.compactionThreshold
  · rw [if_pos hc]
    intro q hq
    exact entryOk_newLogFile _ (hI q hq)
  · rw [if_neg hc]
    exact hI

theorem wf_setMid {s : KvState} (h : Wf s) (k v : String) :
    Wf (setMid s k v) := by
  rcases h with ⟨h1, h2, h3, h4, h5, h6⟩
  unfold setMid
  refine ⟨?_, ?_, ?_, h4, ?_, pairwise_idxInsert _ _ h6⟩
  · intro p hp
    have hm : p.1 ∈ (appendCmd s.files s.curGen (Cmd.Set k v)).map Prod.fst :=
      List.mem_map_of_mem _ hp
    rw [gens_appendCmd] at hm
    rcases List.mem_map.mp hm with ⟨q, hq, he⟩
    dsimp only
    rw [← he]
    exact h1 q hq
  · dsimp only
    rw [gens_appendCmd]
    exact h2
  · unfold activeOk at h3 ⊢
    dsimp only
    rw [lookupFile_appendCmd]
    cases hl : lookupFile s.files s.curGen with
    | none =>
      rw [hl] at h3
      exact h3
    | some seg =>
      rw [hl] at h3
      have h3b : s.writerPos = (segBytes seg).length := h3
      simp only [Option.map_some, if_true]
      show s.writerPos + encLen (Cmd.Set k v) = (segBytes (seg ++ [Cmd.Set k v])).length
      rw [segBytes_append, List.length_append]
      have hone : (segBytes [Cmd.Set k v]).length = encLen (Cmd.Set k v) := by
        simp [segBytes, encLen]
      omega
  · intro cg hcg
    refine ⟨(h5 cg hcg).1, ?_⟩
    dsimp only
    rw [lookupFile_appendCmd, (h5 cg hcg).2]
    rfl

theorem indexInv_setMid {s : KvState} (hW : Wf s) (hI : IndexInv s)
    (k v : String) : IndexInv (setMid s k v) := by
  rcases hW with ⟨h1, h2, h3, h4, h5, h6⟩
  unfold setMid
  intro q hq
  dsimp only at hq ⊢
  rcases mem_idxInsert hq with hnew | hold
  · subst hnew
    unfold activeOk at h3
    cases hl : lookupFile s.files s.curGen with
    | none =>
      rw [hl] at h3
      exact absurd h3 id
    | some seg =>
      rw [hl] at h3
      refine entryOk_iff.mpr ⟨seg ++ [Cmd.Set k v], v, ?_, ?_, ?_⟩
      · dsimp only
        rw [lookupFile_appendCmd, hl]
        simp
      · dsimp only [h3]
        rw [h3]
        have := recordAt_at_end seg (Cmd.Set k v) []
        simpa using this
      · dsimp only
        omega
  · exact entryOk_appendCmd _ _ (hI q hold)

theorem wf_setOp {s : KvState} (h : Wf s) (k v : String) :
    Wf (setOp s k v) :=
  wf_maybeRotate (wf_setMid h k v)

theorem indexInv_setOp {s : KvState} (hW : Wf s) (hI : IndexInv s)
    (k v : String) : IndexInv (setOp s k v) :=
  indexInv_maybeRotate (indexInv_setMid hW hI k v)

theorem wf_removeMid {s : KvState} (h : Wf s) (k : String) (old : CmdPos) :
    Wf (removeMid s k old) := by
  rcases h with ⟨h1, h2, h3, h4, h5, h6⟩
  unfold removeMid
  refine ⟨?_, ?_, ?_, h4, ?_, pairwise_idxRemove _ h6⟩
  · intro p hp
    have hm : p.1 ∈ (appendCmd s.files s.curGen (Cmd.Rm k)).map Prod.fst :=
      List.mem_map_of_mem _ hp
    rw [gens_appendCmd] at hm
    rcases List.mem_map.mp hm with ⟨q, hq, he⟩
    dsimp only
    rw [← he]
    exact h1 q hq
  · dsimp only
    rw [gens_appendCmd]
    exact h2
  · unfold activeOk at h3 ⊢
    dsimp only
    rw [lookupFile_appendCmd]
    cases hl : lookupFile s.files s.curGen with
    | none =>
      rw [hl] at h3
      exact h3
    | some seg =>
      rw [hl] at h3
      have h3b : s.writerPos = (segBytes seg).length := h3
      simp only [Option.map_some, if_true]
      show s.writerPos + encLen (Cmd.Rm k) = (segBytes (seg ++ [Cmd.Rm k])).length
      rw [segBytes_append, List.length_append]
      have hone : (segBytes [Cmd.Rm k]).length = encLen (Cmd.Rm k) := by
        simp [segBytes, encLen]
      omega
  · intro cg hcg
    refine ⟨(h5 cg hcg).1, ?_⟩
    dsimp only
    rw [lookupFile_appendCmd, (h5 cg hcg).2]
    rfl

theorem indexInv_removeMid {s : KvState} (hI : IndexInv s)
    (k : String) (old : CmdPos) : IndexInv (removeMid s k old) := by
  unfold removeMid
  intro q hq
  dsimp only at hq ⊢
  exact entryOk_appendCmd _ _ (hI q (mem_idxRemove hq))

theorem wf_removeOp {s s' : KvState} (h : Wf s) (k : String)
    (hr : (removeOp s k).1 = s') : Wf s' := by
  unfold removeOp at hr
  cases hg : idxGet s.index k with
  | none =>
    rw [hg] at hr
    simp at hr
    rw [← hr]
    exact h
  | some old =>
    rw [hg] at hr
    simp at hr
    rw [← hr]
    exact wf_maybeRotate (wf_removeMid h k old)

theorem indexInv_removeOp {s s' : KvState} (hI : IndexInv s) (k : String)
    (hr : (removeOp s k).1 = s') : IndexInv s' := by
  unfold removeOp at hr
  cases hg : idxGet s.index k with
  | none =>
    rw [hg] at hr
    simp at hr
    rw [← hr]
    exact hI
  | some old =>
    rw [hg] at hr
    simp at hr
    rw [← hr]
    exact indexInv_maybeRotate (indexInv_removeMid hI k old)

/-! ## Behaviour of the rotation step -/

theorem maybeRotate_index (s : KvState) : (maybeRotate s).index = s.index := by
  unfold maybeRotate
  by_cases hc : s.compactionSize > s.compactionThreshold
  · rw [if_pos hc]
  · rw [if_neg hc]

theorem lookupFile_newLogFile_of_some {files : Files} {g : Nat}
    {seg : List Cmd} (g2 : Nat) (h : lookupFile files g = some seg) :
    lookupFile (newLogFile files g2).1 g = some seg := by
  unfold newLogFile
  cases lookupFile files g2 with
  | some s0 => exact h
  | none =>
    rw [lookupFile_concat, h]

theorem maybeRotate_lookup_of_some {s : KvState} {g : Nat} {seg : List Cmd}
    (h : lookupFile s.files g = some seg) :
    lookupFile (maybeRotate s).files g = some seg := by
  unfold maybeRotate
  by_cases hc : s.compactionSize > s.compactionThreshold
  · rw [if_pos hc]
    exact lookupFile_newLogFile_of_some _ h
  · rw [if_neg hc]
    exact h

theorem maybeRotate_csize (s : KvState) :
    (maybeRotate s).compactionSize ≤ s.compactionThreshold := by
  unfold maybeRotate
  by_cases hc : s.compactionSize > s.compactionThreshold
  · rw [if_pos hc]
    exact Nat.zero_le _
  · rw [if_neg hc]
    omega

/-! ## Claim theorems -/

/-- C1: after a successful `set(k, v)` on the `KvStore` engine, the next
`get(k)` returns `Some(v)` (sequential execution): on any well-formed state,
`getOp` after `setOp` locates the freshly appended `Set` record through the
index and returns its value. -/
theorem C1_set_then_get (s : KvState) (hW : Wf s) (k v : String) :
    getOp (setOp s k v) k = .ok (some v) := by
  obtain ⟨h1, h2, h3, h4, h5, h6⟩ := hW
  unfold activeOk at h3
  cases hl : lookupFile s.files s.curGen with
  | none =>
    rw [hl] at h3
    exact absurd h3 id
  | some seg =>
    rw [hl] at h3
    have h3b : s.writerPos = (segBytes seg).length := h3
    have hidx : idxGet (setOp s k v).index k
        = some ⟨s.curGen, s.writerPos,
            s.writerPos + encLen (Cmd.Set k v) - s.writerPos⟩ := by
      rw [setOp, maybeRotate_index]
      unfold setMid
      dsimp only
      exact idxGet_insert_self _ _ _
    have hmid : lookupFile (setMid s k v).files s.curGen
        = some (seg ++ [Cmd.Set k v]) := by
      unfold setMid
      dsimp only
      rw [lookupFile_appendCmd, hl]
      simp
    have hlook : lookupFile (setOp s k v).files s.curGen
        = some (seg ++ [Cmd.Set k v]) := by
      rw [setOp]
      exact maybeRotate_lookup_of_some hmid
    unfold getOp
    rw [hidx]
    unfold readCommand
    dsimp only
    rw [hlook]
    dsimp only
    rw [h3b, recordAt_at_end seg (Cmd.Set k v) []]
    dsimp only
    have hlen : encLen (Cmd.Set k v)
        = (segBytes seg).length + encLen (Cmd.Set k v) - (segBytes seg).length := by
      omega
    rw [if_pos hlen]

/-- C1 witness: the hypothesis holds of a freshly opened store. -/
theorem C1_witness :
    Wf (openOp []) ∧ getOp (setOp (openOp []) "key" "value") "key" = .ok (some "value") :=
  ⟨by decide, C1_set_then_get (openOp []) (by decide) "key" "value"⟩

/-- C3: `remove(k)` on a state whose index lacks `k` fails with
`KeyNotFound` and leaves the engine state unchanged (no record is written);
after a successful `remove(k)` the next `get(k)` returns `None` and a second
`remove(k)` fails with `KeyNotFound`. -/
theorem C3_remove_semantics (s : KvState) (hW : Wf s) (k : String) :
    (idxGet s.index k = none → removeOp s k = (s, .error .KeyNotFound)) ∧
    (∀ s2, removeOp s k = (s2, .ok ()) →
      getOp s2 k = .ok none ∧ removeOp s2 k = (s2, .error .KeyNotFound)) := by
  obtain ⟨h1, h2, h3, h4, h5, h6⟩ := hW
  constructor
  · intro hnone
    unfold removeOp
    rw [hnone]
  · intro s2 hrem
    unfold removeOp at hrem
    cases hg : idxGet s.index k with
    | none =>
      rw [hg] at hrem
      simp at hrem
    | some old =>
      rw [hg] at hrem
      simp only [Prod.mk.injEq] at hrem
      have hs2 : s2 = maybeRotate (removeMid s k old) := hrem.1.symm
      have hidx : idxGet s2.index k = none := by
        rw [hs2, maybeRotate_index]
        unfold removeMid
        dsimp only
        exact idxGet_remove_self h6
      refine ⟨?_, ?_⟩
      · unfold getOp
        rw [hidx]
      · unfold removeOp
        rw [hidx]

/-- C3 witness: both hypotheses are satisfiable — a fresh store misses, and
after one `set` the `remove` succeeds. -/
theorem C3_witness :
    (removeOp (openOp []) "k" = (openOp [], .error .KeyNotFound)) ∧
    (getOp (removeOp (setOp (openOp []) "k" "v") "k").1 "k" = .ok none ∧
      removeOp (removeOp (setOp (openOp []) "k" "v") "k").1 "k"
        = ((removeOp (setOp (openOp []) "k" "v") "k").1, .error .KeyNotFound)) := by
  constructor
  · exact (C3_remove_semantics (openOp []) (by decide) "k").1 (by decide)
  · exact (C3_remove_semantics (setOp (openOp []) "k" "v") (by decide) "k").2
      (removeOp (setOp (openOp []) "k" "v") "k").1 rfl

/-- C10 (implicit): after every `KvStoreWriter::set`, and after every
successful `KvStoreWriter::remove`, the stale-byte counter is at most the
compaction threshold, whatever its value before the call — the same call
that pushes it past the threshold rotates the segment and resets it to 0
before returning. -/
theorem C10_counter_bounded (s : KvState) (k v : String) :
    (setOp s k v).compactionSize ≤ s.compactionThreshold ∧
    (∀ s2, removeOp s k = (s2, .ok ()) →
      s2.compactionSize ≤ s.compactionThreshold) := by
  constructor
  · rw [setOp]
    have := maybeRotate_csize (setMid s k v)
    simpa [setMid] using this
  · intro s2 hrem
    unfold removeOp at hrem
    cases hg : idxGet s.index k with
    | none =>
      rw [hg] at hrem
      simp at hrem
    | some old =>
      rw [hg] at hrem
      simp only [Prod.mk.injEq] at hrem
      rw [← hrem.1]
      have := maybeRotate_csize (removeMid s k old)
      simpa [removeMid] using this

/-- C10 witness: a successful remove exists. -/
theorem C10_witness :
    (setOp (openOp []) "k" "v").compactionSize ≤ (openOp []).compactionThreshold ∧
    (removeOp (setOp (openOp []) "k" "v") "k").1.compactionSize
      ≤ (setOp (openOp []) "k" "v").compactionThreshold := by
  refine ⟨(C10_counter_bounded (openOp []) "k" "v").1, ?_⟩
  exact (C10_counter_bounded (setOp (openOp []) "k" "v") "k" "v").2
    (removeOp (setOp (openOp []) "k" "v") "k").1 rfl

/-! ## Lemma kit: sorting -/

theorem mem_insertSorted {a n : Nat} {l : List Nat} :
    a ∈ insertSorted n l ↔ a = n ∨ a ∈ l := by
  induction l with
  | nil => simp [insertSorted]
  | cons m rest ih =>
    by_cases h : n ≤ m
    · simp [insertSorted, h]
    · simp [insertSorted, h, ih]
      tauto

theorem mem_sortNats {a : Nat} {l : List Nat} : a ∈ sortNats l ↔ a ∈ l := by
  induction l with
  | nil => simp [sortNats]
  | cons m rest ih => simp [sortNats, mem_insertSorted, ih]

theorem pairwise_insertSorted {n : Nat} {l : List Nat}
    (h : l.Pairwise (· ≤ ·)) :
    (insertSorted n l).Pairwise (· ≤ ·) := by
  induction l with
  | nil => simp [insertSorted]
  | cons m rest ih =>
    rcases List.pairwise_cons.mp h with ⟨hhead, htail⟩
    by_cases hle : n ≤ m
    · rw [insertSorted, if_pos hle]
      refine List.pairwise_cons.mpr ⟨?_, h⟩
      intro b hb
      rcases List.mem_cons.mp hb with hb | hb
      · omega
      · have := hhead b hb
        omega
    · rw [insertSorted, if_neg hle]
      refine List.pairwise_cons.mpr ⟨?_, ih htail⟩
      intro b hb
      rcases mem_insertSorted.mp hb with hb | hb
      · omega
      · exact hhead b hb

theorem pairwise_sortNats (l : List Nat) :
    (sortNats l).Pairwise (· ≤ ·) := by
  induction l with
  | nil => simp [sortNats]
  | cons m rest ih => exact pairwise_insertSorted ih

theorem le_getLastD_of_pairwise {l : List Nat} (h : l.Pairwise (· ≤ ·))
    (d : Nat) : ∀ a ∈ l, a ≤ l.getLast?.getD d := by
  induction l with
  | nil => simp
  | cons m rest ih =>
    rcases List.pairwise_cons.mp h with ⟨hhead, htail⟩
    intro a ha
    cases rest with
    | nil =>
      simp at ha
      simp [ha]
    | cons m2 rest2 =>
      have hlast : (m :: m2 :: rest2).getLast? = (m2 :: rest2).getLast? := rfl
      rw [hlast]
      rcases List.mem_cons.mp ha with ha | ha
      · subst ha
        have hm : a ≤ m2 := hhead m2 (by simp)
        have h2 := ih htail m2 (by simp)
        omega
      · exact ih htail a ha

/-! ## Lemma kit: load-time replay -/

/-- Loading the records of a segment, starting anywhere in it, keeps every
index entry well-placed and key-sorted: new entries point at the scanned
record boundaries of that very segment. -/
theorem loadRecs_inv (dir : Files) (gen : Nat) (full : List Cmd)
    (hfull : lookupFile dir gen = some full) :
    ∀ (recs pre : List Cmd) (index : Index) (csize : Nat),
      full = pre ++ recs →
      (∀ q ∈ index, entryOk dir q.1 q.2) →
      index.Pairwise (fun a b => keyLt a.1 b.1) →
      (∀ q ∈ (loadRecs gen recs (segBytes pre).length index csize).1,
          entryOk dir q.1 q.2) ∧
      (loadRecs gen recs (segBytes pre).length index csize).1.Pairwise
        (fun a b => keyLt a.1 b.1) := by
  intro recs
  induction recs with
  | nil =>
    intro pre index csize hpre hok hsort
    exact ⟨hok, hsort⟩
  | cons c rest ih =>
    intro pre index csize hpre hok hsort
    cases c with
    | Set k v =>
      rw [loadRecs]
      have hstep := ih (pre ++ [Cmd.Set k v])
        (idxInsert index k
          ⟨gen, (segBytes pre).length,
            (segBytes pre).length + encLen (Cmd.Set k v) - (segBytes pre).length⟩)
        (match idxGet index k with
          | some old => csize + old.len
          | none => csize)
        (by rw [hpre, List.append_assoc]; rfl)
        ?_ (pairwise_idxInsert _ _ hsort)
      · have harg : (segBytes (pre ++ [Cmd.Set k v])).length
            = (segBytes pre).length + encLen (Cmd.Set k v) := by
          rw [segBytes_append]
          simp [segBytes, encLen]
        rw [harg] at hstep
        exact hstep
      · intro q hq
        rcases mem_idxInsert hq with hnew | hold
        · subst hnew
          refine entryOk_iff.mpr ⟨full, v, hfull, ?_, ?_⟩
          · rw [hpre]
            exact recordAt_at_end pre (Cmd.Set k v) rest
          · dsimp only
            omega
        · exact hok q hold
    | Rm k =>
      rw [loadRecs]
      have hstep := ih (pre ++ [Cmd.Rm k])
        (idxRemove index k)
        ((match idxGet index k with
          | some old => csize + old.len
          | none => csize)
          + ((segBytes pre).length + encLen (Cmd.Rm k) - (segBytes pre).length))
        (by rw [hpre, List.append_assoc]; rfl)
        (fun q hq => hok q (mem_idxRemove hq))
        (pairwise_idxRemove _ hsort)
      have harg : (segBytes (pre ++ [Cmd.Rm k])).length
          = (segBytes pre).length + encLen (Cmd.Rm k) := by
        rw [segBytes_append]
        simp [segBytes, encLen]
      rw [harg] at hstep
      exact hstep

/-- Replaying a whole directory produces a well-placed, key-sorted index. -/
theorem replayAll_inv (dir : Files) :
    (∀ q ∈ (replayAll dir).1, entryOk dir q.1 q.2) ∧
    (replayAll dir).1.Pairwise (fun a b => keyLt a.1 b.1) := by
  unfold replayAll
  have hgen : ∀ (gs : List Nat) (acc : Index × Nat),
      (∀ q ∈ acc.1, entryOk dir q.1 q.2) →
      acc.1.Pairwise (fun a b => keyLt a.1 b.1) →
      (∀ q ∈ (gs.foldl
          (fun acc g =>
            match lookupFile dir g with
            | some recs => loadSeg g recs acc
            | none => acc) acc).1, entryOk dir q.1 q.2) ∧
      ((gs.foldl
          (fun acc g =>
            match lookupFile dir g with
            | some recs => loadSeg g recs acc
            | none => acc) acc).1.Pairwise (fun a b => keyLt a.1 b.1)) := by
    intro gs
    induction gs with
    | nil =>
      intro acc hok hsort
      exact ⟨hok, hsort⟩
    | cons g grest ih =>
      intro acc hok hsort
      rw [List.foldl_cons]
      cases hl : lookupFile dir g with
      | none => exact ih acc hok hsort
      | some recs =>
        refine ih (loadSeg g recs acc) ?_ ?_
        · have := (loadRecs_inv dir g recs hl recs [] acc.1 acc.2 (by simp) hok hsort).1
          simpa [loadSeg, segBytes] using this
        · have := (loadRecs_inv dir g recs hl recs [] acc.1 acc.2 (by simp) hok hsort).2
          simpa [loadSeg, segBytes] using this
  exact hgen (sortNats (dir.map Prod.fst)) ([], 0) (by simp) (by simp)

/-- `KvStore::open` yields a well-formed state satisfying I1 whenever the
directory's generation numbers are distinct (file names are unique). -/
theorem openOp_wf (dir : Files) (hnd : (dir.map Prod.fst).Nodup) :
    Wf (openOp dir) ∧ IndexInv (openOp dir) := by
  have hmax : ∀ p ∈ dir,
      p.1 ≤ (sortNats (dir.map Prod.fst)).getLast?.getD 0 := by
    intro p hp
    exact le_getLastD_of_pairwise (pairwise_sortNats _) 0 p.1
      (mem_sortNats.mpr (List.mem_map_of_mem _ hp))
  have hnone : lookupFile dir ((sortNats (dir.map Prod.fst)).getLast?.getD 0 + 1)
      = none := by
    rw [lookupFile_none_iff]
    intro hmem
    rcases List.mem_map.mp hmem with ⟨p, hp, hfst⟩
    have := hmax p hp
    omega
  have hfw : newLogFile dir ((sortNats (dir.map Prod.fst)).getLast?.getD 0 + 1)
      = (dir ++ [((sortNats (dir.map Prod.fst)).getLast?.getD 0 + 1, [])], 0) := by
    unfold newLogFile
    rw [hnone]
  constructor
  · unfold openOp
    simp only [hfw]
    refine ⟨?_, ?_, ?_, List.Pairwise.nil, ?_, (replayAll_inv dir).2⟩
    · intro p hp
      dsimp only at hp ⊢
      rcases List.mem_append.mp hp with hin | hin
      · have := hmax p hin
        omega
      · simp at hin
        simp [hin]
    · dsimp only
      simp only [List.map_append, List.map_cons, List.map_nil]
      rw [List.nodup_append]
      refine ⟨hnd, List.nodup_singleton _, ?_⟩
      intro a ha hb
      simp at hb
      subst hb
      exact (lookupFile_none_iff _ _).mp hnone ha
    · unfold activeOk
      dsimp only
      rw [lookupFile_concat, hnone]
      simp [segBytes]
    · intro cg hcg
      simp at hcg
  · unfold openOp
    simp only [hfw]
    intro q hq
    dsimp only at hq ⊢
    exact entryOk_concat _ _ ((replayAll_inv dir).1 q hq)

/-! ## Lemma kit: the compactor -/

theorem keyLt_asymm {a b : String} (h : keyLt a b = true) :
    keyLt b a = false := by
  cases hba : keyLt b a with
  | false => rfl
  | true =>
    have := keyLt_trans h hba
    rw [keyLt_irrefl] at this
    exact absurd this Bool.false_ne_true

theorem readCommand_of_entryOk {files : Files} {k : String} {cp : CmdPos}
    (h : entryOk files k cp) :
    ∃ v, readCommand files cp = .ok (Cmd.Set k v)
      ∧ encLen (Cmd.Set k v) = cp.len := by
  rcases entryOk_iff.mp h with ⟨seg, v, hl, hr, hlen⟩
  refine ⟨v, ?_, hlen⟩
  unfold readCommand
  rw [hl]
  dsimp only
  rw [hr]
  dsimp only
  rw [if_pos hlen]

theorem repointed_map_fst (cg : Nat) : ∀ (off : Nat) (i : Index),
    (repointed cg off i).map Prod.fst = i.map Prod.fst := by
  intro off i
  induction i generalizing off with
  | nil => rfl
  | cons kp rest ih =>
    obtain ⟨k, cp⟩ := kp
    simp [repointed, ih]

theorem mem_repointed_gen {cg off : Nat} {i : Index} {q : String × CmdPos}
    (h : q ∈ repointed cg off i) : q.2.gen = cg ∧ q.1 ∈ i.map Prod.fst := by
  induction i generalizing off with
  | nil => simp [repointed] at h
  | cons kp rest ih =>
    obtain ⟨k, cp⟩ := kp
    rcases List.mem_cons.mp h with hq | hq
    · subst hq
      simp
    · rcases ih hq with ⟨h1, h2⟩
      exact ⟨h1, by simp [h2]⟩

theorem pairwise_repointed {cg : Nat} {i : Index}
    (hs : i.Pairwise (fun a b => keyLt a.1 b.1)) (off : Nat) :
    (repointed cg off i).Pairwise (fun a b => keyLt a.1 b.1) := by
  induction i generalizing off with
  | nil => simp [repointed]
  | cons kp rest ih =>
    obtain ⟨k, cp⟩ := kp
    rcases List.pairwise_cons.mp hs with ⟨hhead, htail⟩
    refine List.pairwise_cons.mpr ⟨?_, ih htail _⟩
    intro q hq
    have hk := (mem_repointed_gen hq).2
    rcases List.mem_map.mp hk with ⟨e, he, hfst⟩
    have := hhead e he
    rw [hfst] at this
    exact this

theorem idxInsert_head (k0 : String) (q0 p : CmdPos) (X : Index) :
    idxInsert ((k0, q0) :: X) k0 p = (k0, p) :: X := by
  rw [idxInsert, if_neg (by rw [keyLt_irrefl]; exact Bool.false_ne_true), if_pos rfl]

theorem foldl_insert_gt (k0 : String) (q0 : CmdPos) :
    ∀ (es : Index) (X : Index),
      (∀ e ∈ es, keyLt k0 e.1 = true) →
      es.foldl (fun ix e => idxInsert ix e.1 e.2) ((k0, q0) :: X)
        = (k0, q0) :: es.foldl (fun ix e => idxInsert ix e.1 e.2) X := by
  intro es
  induction es with
  | nil => intro X _; rfl
  | cons e rest ih =>
    intro X hgt
    have hk := hgt e (by simp)
    have hstep : idxInsert ((k0, q0) :: X) e.1 e.2
        = (k0, q0) :: idxInsert X e.1 e.2 := by
      rw [idxInsert, if_neg (by rw [keyLt_asymm hk]; exact Bool.false_ne_true),
        if_neg (Ne.symm (keyLt_ne hk))]
    rw [List.foldl_cons, List.foldl_cons, hstep]
    exact ih (idxInsert X e.1 e.2) (fun e2 he2 => hgt e2 (by simp [he2]))

/-- Folding the repointed entries back into a sorted index replaces every
entry in place: the result is exactly the repointed list. -/
theorem foldl_insert_repointed {i : Index}
    (hs : i.Pairwise (fun a b => keyLt a.1 b.1)) (cg : Nat) : ∀ (off : Nat),
    (repointed cg off i).foldl (fun ix e => idxInsert ix e.1 e.2) i
      = repointed cg off i := by
  induction i with
  | nil => intro off; rfl
  | cons kp rest ih =>
    intro off
    obtain ⟨k0, p0⟩ := kp
    rcases List.pairwise_cons.mp hs with ⟨hhead, htail⟩
    rw [repointed, List.foldl_cons, idxInsert_head]
    have hgt : ∀ e ∈ repointed cg (off + p0.len) rest, keyLt k0 e.1 = true := by
      intro e he
      have hk := (mem_repointed_gen he).2
      rcases List.mem_map.mp hk with ⟨e2, he2, hfst⟩
      have := hhead e2 he2
      rw [hfst] at this
      exact this
    rw [foldl_insert_gt _ _ _ _ hgt, ih htail (off + p0.len)]

/-- The compactor's per-entry loop, characterized: under I1 for the entries
being iterated, every read succeeds; the compaction segment receives the
copied records back-to-back (so each repointed entry is well-placed); the
directory's generation set is unchanged, and other segments are untouched;
and the resulting index is the fold of in-place inserts of the repointed
entries. -/
theorem compactEntries_master (cg : Nat) :
    ∀ (entries : List (String × CmdPos)) (files : Files) (index : Index)
      (compSeg : List Cmd),
      (∀ p ∈ entries, entryOk files p.1 p.2) →
      (∀ p ∈ entries, p.2.gen ≠ cg) →
      lookupFile files cg = some compSeg →
      ∃ files2 ext,
        compactEntries cg entries files index (segBytes compSeg).length
          = .ok (files2,
              (repointed cg (segBytes compSeg).length entries).foldl
                (fun ix e => idxInsert ix e.1 e.2) index) ∧
        files2.map Prod.fst = files.map Prod.fst ∧
        (∀ g, g ≠ cg → lookupFile files2 g = lookupFile files g) ∧
        lookupFile files2 cg = some (compSeg ++ ext) ∧
        (∀ q ∈ repointed cg (segBytes compSeg).length entries,
            entryOk files2 q.1 q.2) := by
  intro entries
  induction entries with
  | nil =>
    intro files index compSeg hok hne hcomp
    refine ⟨files, [], rfl, rfl, fun g _ => rfl, by simpa using hcomp, ?_⟩
    intro q hq
    simp [repointed] at hq
  | cons p rest ih =>
    intro files index compSeg hok hne hcomp
    obtain ⟨k, cp⟩ := p
    rcases readCommand_of_entryOk (hok (k, cp) (by simp)) with ⟨v, hread, hlen⟩
    have hlook2 : lookupFile (appendCmd files cg (Cmd.Set k v)) cg
        = some (compSeg ++ [Cmd.Set k v]) := by
      rw [lookupFile_appendCmd, hcomp]
      simp
    have hlen2 : (segBytes (compSeg ++ [Cmd.Set k v])).length
        = (segBytes compSeg).length + cp.len := by
      rw [segBytes_append]
      have : (segBytes [Cmd.Set k v]).length = encLen (Cmd.Set k v) := by
        simp [segBytes, encLen]
      rw [List.length_append, this, hlen]
    have hok2 : ∀ q ∈ rest, entryOk (appendCmd files cg (Cmd.Set k v)) q.1 q.2 :=
      fun q hq => entryOk_appendCmd _ _ (hok q (by simp [hq]))
    have hne2 : ∀ q ∈ rest, q.2.gen ≠ cg := fun q hq => hne q (by simp [hq])
    rcases ih (appendCmd files cg (Cmd.Set k v))
        (idxInsert index k ⟨cg, (segBytes compSeg).length, cp.len⟩)
        (compSeg ++ [Cmd.Set k v]) hok2 hne2 hlook2 with
      ⟨files2, ext, heq, hgens, hothers, hcg2, hinv2⟩
    rw [hlen2] at heq
    refine ⟨files2, Cmd.Set k v :: ext, ?_, ?_, ?_, ?_, ?_⟩
    · rw [compactEntries, hread]
      dsimp only
      rw [repointed, List.foldl_cons]
      exact heq
    · rw [hgens, gens_appendCmd]
    · intro g hg
      rw [hothers g hg, lookupFile_appendCmd]
      rcases hlf : lookupFile files g with _ | seg
      · rfl
      · simp [hg]
    · rw [hcg2, List.append_assoc]
      rfl
    · intro q hq
      rw [repointed] at hq
      rcases List.mem_cons.mp hq with hq | hq
      · subst hq
        refine entryOk_iff.mpr ⟨compSeg ++ [Cmd.Set k v] ++ ext, v, ?_, ?_, ?_⟩
        · rw [hcg2, List.append_assoc]
        · rw [List.append_assoc]
          exact recordAt_at_end compSeg (Cmd.Set k v) ext
        · dsimp only
          exact hlen
      · rw [hlen2] at hinv2
        exact hinv2 q hq

/-- Processing one compaction generation, characterized: it succeeds, the
index becomes the repointed index (offsets abutting from 0 in iteration
order, generations `cg`, lengths unchanged), the safe point becomes `cg`,
the writer's fields and the channel are untouched, and `Wf`/`IndexInv` are
preserved. -/
theorem compactGen_spec (s : KvState) (cg : Nat) (hW : Wf s) (hI : IndexInv s)
    (hcglt : cg < s.curGen) (hcgnone : lookupFile s.files cg = none)
    (hpendgt : ∀ cg2 ∈ s.pending, cg < cg2) :
    ∃ s2, compactGen s cg = .ok s2 ∧
      s2.index = repointed cg 0 s.index ∧
      s2.safePoint = cg ∧
      s2.curGen = s.curGen ∧
      s2.writerPos = s.writerPos ∧
      s2.pending = s.pending ∧
      s2.compactionSize = s.compactionSize ∧
      s2.compactionThreshold = s.compactionThreshold ∧
      Wf s2 ∧ IndexInv s2 := by
  obtain ⟨h1, h2, h3, h4, h5, h6⟩ := hW
  have hfw : newLogFile s.files cg = (s.files ++ [(cg, [])], 0) := by
    unfold newLogFile
    rw [hcgnone]
  have hcomp0 : lookupFile (s.files ++ [(cg, [])]) cg = some [] := by
    rw [lookupFile_concat, hcgnone, if_pos rfl]
  have hok0 : ∀ p ∈ s.index, entryOk (s.files ++ [(cg, [])]) p.1 p.2 :=
    fun p hp => entryOk_concat _ _ (hI p hp)
  have hne0 : ∀ p ∈ s.index, p.2.gen ≠ cg := by
    intro p hp he
    rcases entryOk_iff.mp (hI p hp) with ⟨seg, v, hl, _, _⟩
    rw [he, hcgnone] at hl
    exact Option.noConfusion hl
  rcases compactEntries_master cg s.index (s.files ++ [(cg, [])]) s.index []
      hok0 hne0 hcomp0 with ⟨files2, ext, heq, hgens, hothers, hcg2, hinv2⟩
  have hz : (segBytes ([] : List Cmd)).length = 0 := rfl
  rw [hz] at heq hinv2
  rw [foldl_insert_repointed h6 cg 0] at heq
  have hnd2 : (files2.map Prod.fst).Nodup := by
    rw [hgens]
    simp only [List.map_append, List.map_cons, List.map_nil]
    rw [List.nodup_append]
    refine ⟨h2, List.nodup_singleton _, ?_⟩
    intro a ha hb
    simp at hb
    subst hb
    exact (lookupFile_none_iff _ _).mp hcgnone ha
  refine ⟨{ s with
      files := files2.filter (fun gs => decide (cg ≤ gs.1)),
      index := repointed cg 0 s.index,
      safePoint := cg }, ?_, rfl, rfl, rfl, rfl, rfl, rfl, rfl, ?_, ?_⟩
  · unfold compactGen
    simp only [hfw]
    rw [heq]
  · -- Wf of the result
    refine ⟨?_, ?_, ?_, h4, ?_, pairwise_repointed h6 0⟩
    · intro p hp
      dsimp only at hp ⊢
      have hp2 := List.mem_of_mem_filter hp
      have hp3 : p.1 ∈ files2.map Prod.fst := List.mem_map_of_mem _ hp2
      rw [hgens] at hp3
      simp only [List.map_append, List.map_cons, List.map_nil,
        List.mem_append, List.mem_singleton] at hp3
      rcases hp3 with hp3 | hp3
      · rcases List.mem_map.mp hp3 with ⟨q, hq, hfst⟩
        rw [← hfst]
        exact h1 q hq
      · omega
    · dsimp only
      have hsub : ((files2.filter (fun gs => decide (cg ≤ gs.1))).map Prod.fst).Sublist
          (files2.map Prod.fst) :=
        (List.filter_sublist files2).map Prod.fst
      exact hnd2.sublist hsub
    · unfold activeOk at h3 ⊢
      dsimp only
      cases hl : lookupFile s.files s.curGen with
      | none =>
        rw [hl] at h3
        exact absurd h3 id
      | some seg =>
        rw [hl] at h3
        have hl2 : lookupFile files2 s.curGen = some seg := by
          rw [hothers s.curGen (by omega), lookupFile_concat, hl]
        rw [lookupFile_filter_some _ hnd2 hl2 (by simp; omega)]
        exact h3
    · intro cg2 hcg2mem
      dsimp only at hcg2mem ⊢
      have hlt2 := (h5 cg2 hcg2mem).1
      refine ⟨hlt2, ?_⟩
      have hne : cg2 ≠ cg := by
        have := hpendgt cg2 hcg2mem
        omega
      have hl2 : lookupFile files2 cg2 = none := by
        rw [hothers cg2 hne, lookupFile_concat, (h5 cg2 hcg2mem).2,
          if_neg hne]
      exact lookupFile_filter_none _ hl2
  · -- IndexInv of the result
    intro q hq
    dsimp only at hq ⊢
    have hgen := (mem_repointed_gen hq).1
    rcases entryOk_iff.mp (hinv2 q hq) with ⟨seg, v, hl2, hr2, hlen2⟩
    refine entryOk_iff.mpr ⟨seg, v, ?_, hr2, hlen2⟩
    rw [hgen] at hl2 ⊢
    exact lookupFile_filter_some _ hnd2 hl2 (by simp)

/-- One compactor iteration (on the head of the channel, if any) preserves
well-formedness and I1. -/
theorem compactOp_preserves (s : KvState) (hW : Wf s) (hI : IndexInv s) :
    ∀ s2, compactOp s = .ok s2 → Wf s2 ∧ IndexInv s2 := by
  intro s2 hc
  obtain ⟨h1, h2, h3, h4, h5, h6⟩ := hW
  unfold compactOp at hc
  cases hp : s.pending with
  | nil =>
    rw [hp] at hc
    simp at hc
    rw [← hc]
    exact ⟨⟨h1, h2, h3, h4, h5, h6⟩, hI⟩
  | cons cg rest =>
    rw [hp] at hc
    have hWpop : Wf { s with pending := rest } := by
      refine ⟨h1, h2, h3, ?_, ?_, h6⟩
      · rw [hp] at h4
        exact (List.pairwise_cons.mp h4).2
      · intro cg2 hcg2
        exact h5 cg2 (by rw [hp]; exact List.mem_cons_of_mem _ hcg2)
    have hIpop : IndexInv { s with pending := rest } := hI
    have hcglt : cg < s.curGen := (h5 cg (by rw [hp]; simp)).1
    have hcgnone : lookupFile s.files cg = none := (h5 cg (by rw [hp]; simp)).2
    have hpendgt : ∀ cg2 ∈ rest, cg < cg2 := by
      rw [hp] at h4
      exact fun cg2 hcg2 => (List.pairwise_cons.mp h4).1 cg2 hcg2
    rcases compactGen_spec { s with pending := rest } cg hWpop hIpop hcglt
        hcgnone hpendgt with ⟨s3, heq, _, _, _, _, _, _, _, hW3, hI3⟩
    dsimp only at hc
    rw [heq] at hc
    dsimp only at hc
    have hs : s3 = s2 := by
      injection hc
    rw [← hs]
    exact ⟨hW3, hI3⟩

/-- C4: every operation — `set`, `remove`, load-time replay (`open`), and
compaction — preserves the invariant that each index entry `(k, gen, off,
len)` locates a decodable `Set` record with key `k` at bytes
`off..off+len` of segment `gen` (the segment is on disk until retired; the
compactor retires only segments no entry points at).  The final conjunct
states the byte-level reading of the invariant. -/
theorem C4_location_invariant (s : KvState) (hW : Wf s) (hI : IndexInv s) :
    (∀ k v, Wf (setOp s k v) ∧ IndexInv (setOp s k v)) ∧
    (∀ k, Wf (removeOp s k).1 ∧ IndexInv (removeOp s k).1) ∧
    (∀ s2, compactOp s = .ok s2 → Wf s2 ∧ IndexInv s2) ∧
    (∀ dir, (dir.map Prod.fst).Nodup → Wf (openOp dir) ∧ IndexInv (openOp dir)) ∧
    (∀ p ∈ s.index, ∃ seg v, lookupFile s.files p.2.gen = some seg ∧
        ((segBytes seg).drop p.2.pos).take p.2.len
          = cmdBytes (Cmd.Set p.1 v)) := by
  refine ⟨?_, ?_, compactOp_preserves s hW hI, fun dir hnd => openOp_wf dir hnd, ?_⟩
  · intro k v
    exact ⟨wf_setOp hW k v, indexInv_setOp hW hI k v⟩
  · intro k
    exact ⟨wf_removeOp hW k rfl, indexInv_removeOp hI k rfl⟩
  · intro p hp
    rcases entryOk_iff.mp (hI p hp) with ⟨seg, v, hl, hr, hlen⟩
    refine ⟨seg, v, hl, ?_⟩
    rw [← hlen]
    exact slice_of_recordAt hr

/-- C4 witness: a small reachable state satisfies the hypotheses. -/
theorem C4_witness :
    Wf (setOp (openOp []) "k" "v") ∧ IndexInv (setOp (openOp []) "k" "v") ∧
    (∀ p ∈ (setOp (openOp []) "k" "v").index,
      ∃ seg v, lookupFile (setOp (openOp []) "k" "v").files p.2.gen = some seg ∧
        ((segBytes seg).drop p.2.pos).take p.2.len
          = cmdBytes (Cmd.Set p.1 v)) :=
  ⟨by decide, by decide,
    (C4_location_invariant (setOp (openOp []) "k" "v") (by decide) (by decide)).2.2.2.2⟩

/-- C5: after the compactor processes the pending compaction request `cg`,
every key it iterated is indexed at `(cg, new_offset, same length)` with the
offsets abutting from 0 in iteration order (`repointed`), the safe point
equals `cg`, and exactly that one request has been consumed from the
channel. -/
theorem C5_compaction_result (s : KvState) (hW : Wf s) (hI : IndexInv s)
    (cg : Nat) (rest : List Nat) (hp : s.pending = cg :: rest) :
    ∃ s2, compactOp s = .ok s2 ∧
      s2.index = repointed cg 0 s.index ∧
      s2.safePoint = cg ∧
      s2.pending = rest := by
  obtain ⟨h1, h2, h3, h4, h5, h6⟩ := hW
  have hWpop : Wf { s with pending := rest } := by
    refine ⟨h1, h2, h3, ?_, ?_, h6⟩
    · rw [hp] at h4
      exact (List.pairwise_cons.mp h4).2
    · intro cg2 hcg2
      exact h5 cg2 (by rw [hp]; exact List.mem_cons_of_mem _ hcg2)
  have hcglt : cg < s.curGen := (h5 cg (by rw [hp]; simp)).1
  have hcgnone : lookupFile s.files cg = none := (h5 cg (by rw [hp]; simp)).2
  have hpendgt : ∀ cg2 ∈ rest, cg < cg2 := by
    rw [hp] at h4
    exact fun cg2 hcg2 => (List.pairwise_cons.mp h4).1 cg2 hcg2
  rcases compactGen_spec { s with pending := rest } cg hWpop hI hcglt
      hcgnone hpendgt with ⟨s3, heq, hidx, hsafe, _, _, hpend, _, _, _, _⟩
  refine ⟨s3, ?_, hidx, hsafe, hpend⟩
  unfold compactOp
  rw [hp]
  dsimp only
  rw [heq]

/-- C5 witness: a well-formed state with one pending compaction request. -/
theorem C5_witness :
    ∃ s2, compactOp
        { files := [(1, [Cmd.Set "a" "b"]), (3, [])],
          index := [("a", ⟨1, 0, 31⟩)],
          curGen := 3, writerPos := 0, compactionSize := 0,
          compactionThreshold := COMPACTION, safePoint := 0,
          pending := [2] } = .ok s2 ∧
      s2.index = repointed 2 0 [("a", ⟨1, 0, 31⟩)] ∧
      s2.safePoint = 2 ∧
      s2.pending = [] :=
  C5_compaction_result _ (by decide) (by decide) 2 [] rfl

/-! ## The request server (claim C6) -/

/-- C6 counterexample: the claim says an error while handling a request
terminates only that connection and the server continues serving subsequent
connections.  On the code, `KvServer::run` calls `self.serve(tcp)?`, so a
malformed request on the first connection makes `run` return that error:
the second connection's `Set` is never dispatched (the key stays absent),
no responses are produced for it, and `run` itself ends with the error
instead of continuing to accept. -/
theorem C6_counterexample :
    (runServer (openOp [])
        [.ok [.error (KvsError.SerdeError "malformed request")],
         .ok [.ok (Request.Set "a" "b")]]).2.2
      = .error (KvsError.SerdeError "malformed request") ∧
    (runServer (openOp [])
        [.ok [.error (KvsError.SerdeError "malformed request")],
         .ok [.ok (Request.Set "a" "b")]]).2.1 = [[]] ∧
    idxGet (runServer (openOp [])
        [.ok [.error (KvsError.SerdeError "malformed request")],
         .ok [.ok (Request.Set "a" "b")]]).1.index "a" = none := by
  refine ⟨rfl, rfl, rfl⟩

/-- C6 amended: in `KvServer::run`, an error while *accepting* a connection
is logged and the loop continues; an error while *handling* a request
(`serve` returning `Err`) is propagated by `self.serve(tcp)?`, terminating
the whole accept loop — subsequent connections are not served.  A
connection served without error contributes its responses and the loop
continues. -/
theorem C6_run_loop_behavior (s : KvState) (msg : String)
    (conns : List (Except String (List (Except KvsError Request))))
    (conn : List (Except KvsError Request)) :
    (runServer s (.error msg :: conns) = runServer s conns) ∧
    (∀ e resps s2, serveConn s conn = (s2, resps, .error e) →
      runServer s (.ok conn :: conns) = (s2, [resps], .error e)) ∧
    (∀ resps s2, serveConn s conn = (s2, resps, .ok ()) →
      runServer s (.ok conn :: conns)
        = ((runServer s2 conns).1,
            resps :: (runServer s2 conns).2.1,
            (runServer s2 conns).2.2)) := by
  refine ⟨rfl, ?_, ?_⟩
  · intro e resps s2 hserve
    rw [runServer, hserve]
  · intro resps s2 hserve
    rw [runServer, hserve]

/-- C6 witness: both a failing and a succeeding connection exist. -/
theorem C6_witness :
    (runServer (openOp [])
        [.ok [.error (KvsError.SerdeError "bad")], .ok []]
      = (openOp [], [[]], .error (KvsError.SerdeError "bad"))) ∧
    (runServer (openOp []) [.ok [.ok (Request.Get "x")]]
      = ((runServer (openOp []) []).1,
          [Response.GetOk none] :: (runServer (openOp []) []).2.1,
          (runServer (openOp []) []).2.2)) := by
  constructor
  · exact (C6_run_loop_behavior (openOp []) "" [.ok []]
      [.error (KvsError.SerdeError "bad")]).2.1
      (KvsError.SerdeError "bad") [] (openOp []) rfl
  · exact (C6_run_loop_behavior (openOp []) "" []
      [.ok (Request.Get "x")]).2.2 [Response.GetOk none] (openOp []) rfl

/-! ## The directory listing (claim C7) -/

theorem afterLast_eq_some {c : Char} :
    ∀ {l r : List Char}, afterLast c l = some r → ∃ pre, l = pre ++ c :: r := by
  intro l
  induction l with
  | nil =>
    intro r h
    simp [afterLast] at h
  | cons x xs ih =>
    intro r h
    rw [afterLast] at h
    cases h2 : afterLast c xs with
    | some r2 =>
      rw [h2] at h
      cases h
      rcases ih h2 with ⟨pre, hpre⟩
      exact ⟨x :: pre, by rw [hpre]; rfl⟩
    | none =>
      rw [h2] at h
      by_cases hx : x = c
      · rw [if_pos hx] at h
        cases h
        refine ⟨[], ?_⟩
        rw [hx]
        rfl
      · rw [if_neg hx] at h
        exact absurd h (by simp)

theorem afterLast_append_dotlog :
    ∀ pre : List Char,
      afterLast (Char.ofNat 46) (pre ++ Char.ofNat 46 :: ['l', 'o', 'g'])
        = some ['l', 'o', 'g'] := by
  intro pre
  induction pre with
  | nil => rfl
  | cons x xs ih =>
    rw [List.cons_append, afterLast, ih]

theorem stripOneLogRev_some :
    ∀ {l r : List Char}, stripOneLogRev l = some r
      → l = 'g' :: 'o' :: 'l' :: '.' :: r := by
  intro l r h
  rw [stripOneLogRev.eq_def] at h
  split at h
  · cases h
    rfl
  · exact absurd h (by simp)

theorem extension_append_log (pre : List Char) (h : pre ≠ []) :
    extension (String.mk (pre ++ ['.', 'l', 'o', 'g'])) = some "log" := by
  cases pre with
  | nil => exact absurd rfl h
  | cons x pre2 =>
    show (afterLast (Char.ofNat 46) (pre2 ++ ['.', 'l', 'o', 'g'])).map
        List.asString = some "log"
    have : (['.', 'l', 'o', 'g'] : List Char)
        = Char.ofNat 46 :: ['l', 'o', 'g'] := rfl
    rw [this, afterLast_append_dotlog]
    rfl

theorem extension_log_ends {name : String} (h : extension name = some "log") :
    ∃ pre, name.data = pre ++ ['.', 'l', 'o', 'g'] := by
  unfold extension at h
  cases hd : name.data with
  | nil =>
    rw [hd] at h
    exact absurd h (by simp)
  | cons x rest =>
    rw [hd] at h
    rcases Option.map_eq_some'.mp h with ⟨r, hr, hstr⟩
    have hrlog : r = ['l', 'o', 'g'] := by
      have : r.asString = "log" := hstr
      have h2 : String.mk r = String.mk ['l', 'o', 'g'] := this
      injection h2
    subst hrlog
    rcases afterLast_eq_some hr with ⟨pre, hpre⟩
    exact ⟨x :: pre, by rw [hpre]; rfl⟩

/-- The code's per-entry parse agrees everywhere with the amended
specification (one **or more** `".log"` suffixes stripped). -/
theorem parseGenEntry_eq_amended (e : String × Bool) :
    parseGenEntry e = amendedGenEntry e := by
  unfold parseGenEntry amendedGenEntry
  by_cases hf : e.2
  · simp only [hf, true_and, if_true]
    cases hso : stripOneLogRev e.1.data.reverse with
    | none =>
      have hext : ¬ (extension e.1 = some "log") := by
        intro hx
        rcases extension_log_ends hx with ⟨pre, hpre⟩
        have : e.1.data.reverse = 'g' :: 'o' :: 'l' :: '.' :: pre.reverse := by
          rw [hpre]
          simp
        rw [this] at hso
        exact absurd hso (by simp [stripOneLogRev])
      rw [if_neg hext]
      rfl
    | some r =>
      have hdata : e.1.data = r.reverse ++ ['.', 'l', 'o', 'g'] := by
        have h2 := stripOneLogRev_some hso
        have h3 : e.1.data = e.1.data.reverse.reverse := by simp
        rw [h3, h2]
        simp
      have htrim : trimEndLog e.1.data = (stripLogsRev r).reverse := by
        unfold trimEndLog
        rw [stripOneLogRev_some hso]
        rfl
      by_cases hr : r = []
      · subst hr
        have hdot : e.1.data = ['.', 'l', 'o', 'g'] := by simpa using hdata
        have hext : extension e.1 = none := by
          unfold extension
          rw [hdot]
          rfl
        rw [hext, if_neg (by simp)]
        rfl
      · have heta : ∀ st : String, String.mk st.data = st := by
          intro st
          cases st
          rfl
        have hext : extension e.1 = some "log" := by
          rw [← heta e.1, hdata]
          exact extension_append_log r.reverse (by simpa using hr)
        rw [if_pos hext, htrim]
        rfl
  · rw [if_neg (fun hc => hf hc.1), if_neg hf]

theorem filterMap_parseGen_eq (dir : List (String × Bool)) :
    dir.filterMap parseGenEntry = dir.filterMap amendedGenEntry := by
  induction dir with
  | nil => rfl
  | cons e rest ih =>
    rw [List.filterMap_cons, List.filterMap_cons, parseGenEntry_eq_amended, ih]

/-- C7 counterexample: the claim says only names that are a u64 followed by
a **single** `".log"` suffix contribute.  The file `12.log.log` is not of
that shape, yet `get_sorted_gen_list` returns 12 for it:
`trim_end_matches(".log")` strips *every* trailing `".log"`. -/
theorem C7_counterexample :
    getSortedGenList [("12.log.log", true)] = [12] ∧
    claimGenList [("12.log.log", true)] = [] ∧
    getSortedGenList [("12.log.log", true)]
      ≠ claimGenList [("12.log.log", true)] := by
  refine ⟨by decide, by decide, by decide⟩

/-- C7 amended: `get_sorted_gen_list` returns exactly the integers of file
entries whose extension is `log` and whose name is a u64 followed by **one
or more** `".log"` suffixes (all of them are stripped before parsing; the
parse accepts what Rust's `u64::from_str` accepts), sorted ascending;
every other entry contributes nothing. -/
theorem C7_gen_list_amended (dir : List (String × Bool)) :
    getSortedGenList dir = amendedGenList dir ∧
    (getSortedGenList dir).Pairwise (· ≤ ·) := by
  constructor
  · unfold getSortedGenList amendedGenList
    rw [filterMap_parseGen_eq]
  · exact pairwise_sortNats _

/-! ## The shared-queue worker pool (claims C8, C9) -/

/-- C8 counterexample: the claim says a worker's receive loop terminates
once the sender is dropped and the queued jobs are drained.  In the source,
neither arm of the `match job` breaks out of `loop`: the transcription of
the loop body continues after a `RecvError`, and after 100 further
iterations on a drained, disconnected queue the loop is still running. -/
theorem C8_counterexample :
    loopExitsAfter RecvOutcome.disconnected = false ∧
    (workerTrace 100 []).2 = true := by
  refine ⟨rfl, by decide⟩

/-- C8 amended: after the job sender is dropped, a worker receives the
remaining buffered jobs in order and runs them, and then receives
`Err(RecvError)` on every subsequent `recv`, which it merely logs — the
receive loop itself never terminates (it spins on the disconnected
channel). -/
theorem C8_worker_drain_no_exit (fuel : Nat) (jobs : List Nat) :
    (workerTrace fuel jobs).2 = true ∧
    ranJobs (workerTrace fuel jobs).1 = jobs.take fuel := by
  induction fuel generalizing jobs with
  | zero => exact ⟨rfl, by simp [workerTrace, ranJobs]⟩
  | succ n ih =>
    cases jobs with
    | nil =>
      rw [workerTrace]
      rw [if_neg (by simp [loopExitsAfter])]
      refine ⟨(ih []).1, ?_⟩
      show ranJobs (WorkerEvent.loggedDisconnect :: (workerTrace n []).1) = []
      rw [ranJobs, (ih []).2]
      simp
    | cons j rest =>
      rw [workerTrace]
      refine ⟨(ih rest).1, ?_⟩
      show ranJobs (WorkerEvent.ran j :: (workerTrace n rest).1) = (j :: rest).take (n + 1)
      rw [ranJobs, (ih rest).2]
      rfl

/-- C9: for every sequence of jobs run by a `SharedQueueThreadPool` of `N ≥ 1`
threads, of which some panic, the pool still accepts and executes every
subsequently submitted non-panicking job, and the worker-thread count stays
`N`: a panicking job kills its worker, but the `RxWrapper` destructor runs
during the unwind with `thread::panicking()` set and spawns a replacement
on the same receiver. -/
theorem C9_panic_resilience (threads : Nat) (hN : 1 ≤ threads)
    (jobs : List (Nat × Bool)) :
    (runPool threads jobs).workers = threads ∧
    (runPool threads jobs).executed
      = (jobs.filter (fun j => !j.2)).map Prod.fst := by
  have key : ∀ (js : List (Nat × Bool)) (st : PoolState), 1 ≤ st.workers →
      (js.foldl runJob st).workers = st.workers ∧
      (js.foldl runJob st).executed
        = st.executed ++ (js.filter (fun j => !j.2)).map Prod.fst := by
    intro js
    induction js with
    | nil =>
      intro st hst
      exact ⟨rfl, by simp⟩
    | cons j rest ih =>
      intro st hst
      rw [List.foldl_cons]
      by_cases hp : j.2 = true
      · have hstep : runJob st j = { st with workers := st.workers - 1 + 1 } := by
          unfold runJob
          rw [if_pos hp]
        have hw : st.workers - 1 + 1 = st.workers := by omega
        rw [hstep, hw]
        rcases ih { st with workers := st.workers } (by exact hst) with ⟨ih1, ih2⟩
        refine ⟨ih1, ?_⟩
        rw [ih2]
        simp [List.filter, hp]
      · have hstep : runJob st j = { st with executed := st.executed ++ [j.1] } := by
          unfold runJob
          rw [if_neg hp]
        rw [hstep]
        rcases ih { st with executed := st.executed ++ [j.1] } hst with ⟨ih1, ih2⟩
        refine ⟨ih1, ?_⟩
        rw [ih2]
        simp [List.filter, hp]
  exact key jobs ⟨threads, []⟩ hN

/-- C9 witness: a pool of 4 threads with a panicking job in the middle. -/
theorem C9_witness :
    (runPool 4 [(1, false), (2, true), (3, false)]).workers = 4 ∧
    (runPool 4 [(1, false), (2, true), (3, false)]).executed
      = ([(1, false), (2, true), (3, false)].filter (fun j => !j.2)).map Prod.fst :=
  C9_panic_resilience 4 (by decide) [(1, false), (2, true), (3, false)]

/-! ## Lemma kit: encoded length of the 1 MiB value -/

theorem escChar_a : escChar 'a' = ['a'] := by decide

theorem flatMap_escChar_replicate (n : Nat) :
    (List.replicate n 'a').flatMap escChar = List.replicate n 'a' := by
  induction n with
  | zero => rfl
  | succ m ih =>
    rw [List.replicate_succ, List.flatMap_cons, escChar_a, ih]
    rfl

theorem utf8Enc_a : utf8Enc 'a' = [97] := by decide

theorem length_flatMap_utf8_replicate (n : Nat) :
    ((List.replicate n 'a').flatMap utf8Enc).length = n := by
  induction n with
  | zero => rfl
  | succ m ih =>
    rw [List.replicate_succ, List.flatMap_cons, utf8Enc_a, List.length_append, ih]
    simp only [List.length_singleton]
    omega

theorem encLen_set_value_repl (k : String) (n : Nat) :
    encLen (Cmd.Set k (String.mk (List.replicate n 'a')))
      = encLen (Cmd.Set k "") + n := by
  unfold encLen cmdBytes encodeCmd jsonString
  dsimp only
  rw [flatMap_escChar_replicate]
  simp only [List.flatMap_cons, List.flatMap_append, List.flatMap_nil,
    List.length_append, List.append_nil, List.nil_append,
    length_flatMap_utf8_replicate]
  omega

theorem encLen_set_big :
    encLen (Cmd.Set "k" bigValue) = 2 ^ 20 + 30 := by
  have h1 : encLen (Cmd.Set "k" bigValue)
      = encLen (Cmd.Set "k" "") + 2 ^ 20 := encLen_set_value_repl "k" (2 ^ 20)
  have h2 : encLen (Cmd.Set "k" "") = 30 := by decide
  omega

/-! ## Replay equivalence (claim C2): counterexample -/

/-- C2 counterexample: the claim says reopening rebuilds a stale-byte
counter equal to the live one.  Overwriting a 1 MiB value fires the
compaction trigger, which resets the live counter to 0 while the stale
record is still on disk; replaying the directory counts those stale bytes
again, so the replayed counter differs from the live one (the indexes still
agree). -/
theorem C2_step1 (v : String) :
    setOp (⟨[(1, [])], [], 1, 0, 0, COMPACTION, 0, []⟩ : KvState) "k" v
      = ⟨[(1, [Cmd.Set "k" v])],
         [("k", ⟨1, 0, encLen (Cmd.Set "k" v)⟩)],
         1, encLen (Cmd.Set "k" v), 0, COMPACTION, 0, []⟩ := by
  unfold setOp setMid maybeRotate
  dsimp only
  simp [appendCmd, idxGet, idxInsert, COMPACTION]

theorem C2_step2 (v : String) (hv : encLen (Cmd.Set "k" v) = 2 ^ 20 + 30) :
    setOp (⟨[(1, [Cmd.Set "k" v])],
         [("k", ⟨1, 0, encLen (Cmd.Set "k" v)⟩)],
         1, encLen (Cmd.Set "k" v), 0, COMPACTION, 0, []⟩ : KvState) "k" "x"
      = ⟨[(1, [Cmd.Set "k" v, Cmd.Set "k" "x"]), (3, [])],
         [("k", ⟨1, encLen (Cmd.Set "k" v), encLen (Cmd.Set "k" "x")⟩)],
         3, 0, 0, COMPACTION, 0, [2]⟩ := by
  unfold setOp setMid maybeRotate newLogFile
  dsimp only
  rw [hv]
  simp [appendCmd, idxGet, idxInsert, lookupFile, COMPACTION, keyLt_irrefl]

theorem C2_step3 (v : String) :
    replayAll [(1, [Cmd.Set "k" v, Cmd.Set "k" "x"]), (3, [])]
      = ([("k", ⟨1, encLen (Cmd.Set "k" v), encLen (Cmd.Set "k" "x")⟩)],
         encLen (Cmd.Set "k" v)) := by
  unfold replayAll
  simp [sortNats, insertSorted, loadSeg, loadRecs, lookupFile, idxGet,
    idxInsert, idxRemove, keyLt_irrefl]

/-- C2 counterexample: the claim says reopening rebuilds a stale-byte
counter equal to the live one.  Overwriting a 1 MiB value fires the
compaction trigger, which resets the live counter to 0 while the stale
record is still on disk; replaying the directory counts those stale bytes
again, so the replayed counter (2^20 + 30) differs from the live one (0)
— while the indexes still agree. -/
theorem C2_counterexample :
    (replayAll (execOps (openOp [])
        [KvOp.set "k" bigValue, KvOp.set "k" "x"]).files).2
      ≠ (execOps (openOp [])
        [KvOp.set "k" bigValue, KvOp.set "k" "x"]).compactionSize := by
  have h0 : openOp [] = ⟨[(1, [])], [], 1, 0, 0, COMPACTION, 0, []⟩ := by decide
  have hexec : execOps (openOp []) [KvOp.set "k" bigValue, KvOp.set "k" "x"]
      = ⟨[(1, [Cmd.Set "k" bigValue, Cmd.Set "k" "x"]), (3, [])],
         [("k", ⟨1, encLen (Cmd.Set "k" bigValue), encLen (Cmd.Set "k" "x")⟩)],
         3, 0, 0, COMPACTION, 0, [2]⟩ := by
    rw [execOps, applyOp, h0, C2_step1 bigValue, execOps, applyOp,
      C2_step2 bigValue encLen_set_big, execOps]
  rw [hexec]
  dsimp only
  rw [C2_step3 bigValue]
  dsimp only
  rw [encLen_set_big]
  omega

/-! ## Replay equivalence (claim C2): the simulation -/

theorem foldl_agree {α β : Type} :
    ∀ (l : List α) (f1 f2 : β → α → β) (b : β),
      (∀ x ∈ l, ∀ acc, f1 acc x = f2 acc x) →
      l.foldl f1 b = l.foldl f2 b := by
  intro l
  induction l with
  | nil => intro f1 f2 b _; rfl
  | cons x xs ih =>
    intro f1 f2 b hag
    rw [List.foldl_cons, List.foldl_cons, hag x (by simp) b]
    exact ih f1 f2 _ (fun y hy acc => hag y (by simp [hy]) acc)

theorem sortNats_of_sorted : ∀ {l : List Nat}, l.Pairwise (· < ·) → sortNats l = l := by
  intro l
  induction l with
  | nil => intro _; rfl
  | cons m rest ih =>
    intro h
    rcases List.pairwise_cons.mp h with ⟨hhead, htail⟩
    rw [sortNats, ih htail]
    cases rest with
    | nil => rfl
    | cons m2 rest2 =>
      rw [insertSorted, if_pos (Nat.le_of_lt (hhead m2 (by simp)))]

theorem replayAll_eq_replaySeq :
    ∀ (dir : Files), dir.Pairwise (fun a b => a.1 < b.1) →
      replayAll dir = replaySeq dir ([], 0) := by
  have main : ∀ (dir : Files), dir.Pairwise (fun a b => a.1 < b.1) →
      ∀ acc, (dir.map Prod.fst).foldl
          (fun acc g =>
            match lookupFile dir g with
            | some recs => loadSeg g recs acc
            | none => acc) acc
        = replaySeq dir acc := by
    intro dir
    induction dir with
    | nil => intro _ acc; rfl
    | cons p rest ih =>
      intro h acc
      obtain ⟨g, recs⟩ := p
      rcases List.pairwise_cons.mp h with ⟨hhead, htail⟩
      rw [List.map_cons, List.foldl_cons]
      have hg : lookupFile ((g, recs) :: rest) g = some recs := by
        rw [lookupFile, if_pos rfl]
      rw [hg]
      have hagree : ∀ x ∈ rest.map Prod.fst, ∀ acc2,
          (match lookupFile ((g, recs) :: rest) x with
            | some recs2 => loadSeg x recs2 acc2
            | none => acc2)
          = (match lookupFile rest x with
            | some recs2 => loadSeg x recs2 acc2
            | none => acc2) := by
        intro x hx acc2
        rcases List.mem_map.mp hx with ⟨q, hq, hfst⟩
        have hne : x ≠ g := by
          have := hhead q hq
          omega
        rw [lookupFile, if_neg hne]
      rw [foldl_agree _ _ _ _ hagree]
      rw [ih htail (loadSeg g recs acc)]
      rfl
  intro dir h
  unfold replayAll
  rw [sortNats_of_sorted (List.pairwise_map.mpr h)]
  exact main dir h ([], 0)

theorem appendCmd_append (a b : Files) (g : Nat) (c : Cmd) :
    appendCmd (a ++ b) g c = appendCmd a g c ++ appendCmd b g c := by
  induction a with
  | nil => rfl
  | cons p rest ih =>
    obtain ⟨g0, seg0⟩ := p
    rw [List.cons_append, appendCmd, appendCmd, ih]
    rfl

theorem appendCmd_id_of_ne {a : Files} {g : Nat} (c : Cmd)
    (h : ∀ p ∈ a, p.1 ≠ g) : appendCmd a g c = a := by
  induction a with
  | nil => rfl
  | cons p rest ih =>
    obtain ⟨g0, seg0⟩ := p
    rw [appendCmd, if_neg (h (g0, seg0) (by simp)), ih (fun q hq => h q (by simp [hq]))]

theorem replaySeq_append (a b : Files) (acc : Index × Nat) :
    replaySeq (a ++ b) acc = replaySeq b (replaySeq a acc) := by
  induction a generalizing acc with
  | nil => rfl
  | cons p rest ih =>
    obtain ⟨g, recs⟩ := p
    rw [List.cons_append, replaySeq, replaySeq, ih]

theorem loadRecs_append (gen : Nat) :
    ∀ (l1 l2 : List Cmd) (pos : Nat) (index : Index) (csize : Nat),
      loadRecs gen (l1 ++ l2) pos index csize
        = loadRecs gen l2 (pos + (segBytes l1).length)
            (loadRecs gen l1 pos index csize).1
            (loadRecs gen l1 pos index csize).2 := by
  intro l1
  induction l1 with
  | nil =>
    intro l2 pos index csize
    have : (segBytes ([] : List Cmd)).length = 0 := rfl
    rw [this, Nat.add_zero]
    rfl
  | cons c rest ih =>
    intro l2 pos index csize
    have harith : pos + (segBytes (c :: rest)).length
        = (pos + encLen c) + (segBytes rest).length := by
      have : (segBytes (c :: rest)).length = encLen c + (segBytes rest).length := by
        simp [segBytes, encLen]
      omega
    cases c with
    | Set k v =>
      rw [List.cons_append, loadRecs, loadRecs, ih, harith]
    | Rm k =>
      rw [List.cons_append, loadRecs, loadRecs, ih, harith]

theorem lookupFile_last {files0 : Files} {g : Nat} {seg : List Cmd}
    (hlt : ∀ p ∈ files0, p.1 < g) :
    lookupFile (files0 ++ [(g, seg)]) g = some seg := by
  rw [lookupFile_concat]
  have hnone : lookupFile files0 g = none := by
    rw [lookupFile_none_iff]
    intro hm
    rcases List.mem_map.mp hm with ⟨p, hp, he⟩
    have := hlt p hp
    omega
  rw [hnone, if_pos rfl]

theorem sim_setMid {s : KvState} (h : Sim s) (k v : String) :
    Sim (setMid s k v) := by
  obtain ⟨hW, hpair, ⟨files0, seg, hdec⟩, hidx, hcs⟩ := h
  have hlt0 : ∀ p ∈ files0, p.1 < s.curGen := by
    intro p hp
    rw [hdec] at hpair
    rcases List.pairwise_append.mp hpair with ⟨_, _, hcross⟩
    exact hcross p hp (s.curGen, seg) (by simp)
  have happend : appendCmd s.files s.curGen (Cmd.Set k v)
      = files0 ++ [(s.curGen, seg ++ [Cmd.Set k v])] := by
    rw [hdec, appendCmd_append,
      appendCmd_id_of_ne _ (fun p hp => Nat.ne_of_lt (hlt0 p hp)),
      appendCmd, if_pos rfl, appendCmd]
  have hlook : lookupFile s.files s.curGen = some seg := by
    rw [hdec]
    exact lookupFile_last hlt0
  have hwpos : s.writerPos = (segBytes seg).length := by
    obtain ⟨_, _, h3, _, _, _⟩ := hW
    unfold activeOk at h3
    rw [hlook] at h3
    exact h3
  have hfields : setMid s k v = { s with
      files := files0 ++ [(s.curGen, seg ++ [Cmd.Set k v])],
      index := idxInsert s.index k
        ⟨s.curGen, s.writerPos,
          s.writerPos + encLen (Cmd.Set k v) - s.writerPos⟩,
      writerPos := s.writerPos + encLen (Cmd.Set k v),
      compactionSize :=
        match idxGet s.index k with
        | some old => s.compactionSize + old.len
        | none => s.compactionSize } := by
    unfold setMid
    dsimp only
    rw [happend]
  have hX : replaySeq s.files ([], 0)
      = loadSeg s.curGen seg (replaySeq files0 ([], 0)) := by
    rw [hdec, replaySeq_append]
    rfl
  have hreplay : replaySeq (files0 ++ [(s.curGen, seg ++ [Cmd.Set k v])]) ([], 0)
      = loadRecs s.curGen [Cmd.Set k v]
          (0 + (segBytes seg).length)
          (replaySeq s.files ([], 0)).1
          (replaySeq s.files ([], 0)).2 := by
    rw [replaySeq_append]
    show loadSeg s.curGen (seg ++ [Cmd.Set k v]) (replaySeq files0 ([], 0)) = _
    unfold loadSeg
    rw [loadRecs_append]
    rw [hX]
    rfl
  have hstep : ∀ (P : Nat) (i : Index) (cs : Nat),
      loadRecs s.curGen [Cmd.Set k v] P i cs
        = (idxInsert i k ⟨s.curGen, P, P + encLen (Cmd.Set k v) - P⟩,
           match idxGet i k with
           | some old => cs + old.len
           | none => cs) := by
    intro P i cs
    rw [loadRecs]
    rfl
  rw [hfields]
  refine ⟨?_, ?_, ⟨files0, seg ++ [Cmd.Set k v], rfl⟩, ?_, ?_⟩
  · have := wf_setMid hW k v
    rw [hfields] at this
    exact this
  · dsimp only
    rw [hdec] at hpair
    rcases List.pairwise_append.mp hpair with ⟨hp0, _, hcross⟩
    refine List.pairwise_append.mpr ⟨hp0, List.pairwise_singleton _ _, ?_⟩
    intro a ha b hb
    simp at hb
    rw [hb]
    exact hcross a ha (s.curGen, seg) (by simp)
  · dsimp only
    rw [hreplay, hstep, ← hwpos, Nat.zero_add, hidx]
  · intro hg
    dsimp only at hg ⊢
    rw [hreplay, hstep, hcs hg, hidx, ← hwpos, Nat.zero_add]

theorem sim_removeMid {s : KvState} (h : Sim s) (k : String) {old : CmdPos}
    (hget : idxGet s.index k = some old) :
    Sim (removeMid s k old) := by
  obtain ⟨hW, hpair, ⟨files0, seg, hdec⟩, hidx, hcs⟩ := h
  have hlt0 : ∀ p ∈ files0, p.1 < s.curGen := by
    intro p hp
    rw [hdec] at hpair
    rcases List.pairwise_append.mp hpair with ⟨_, _, hcross⟩
    exact hcross p hp (s.curGen, seg) (by simp)
  have happend : appendCmd s.files s.curGen (Cmd.Rm k)
      = files0 ++ [(s.curGen, seg ++ [Cmd.Rm k])] := by
    rw [hdec, appendCmd_append,
      appendCmd_id_of_ne _ (fun p hp => Nat.ne_of_lt (hlt0 p hp)),
      appendCmd, if_pos rfl, appendCmd]
  have hlook : lookupFile s.files s.curGen = some seg := by
    rw [hdec]
    exact lookupFile_last hlt0
  have hwpos : s.writerPos = (segBytes seg).length := by
    obtain ⟨_, _, h3, _, _, _⟩ := hW
    unfold activeOk at h3
    rw [hlook] at h3
    exact h3
  have hfields : removeMid s k old = { s with
      files := files0 ++ [(s.curGen, seg ++ [Cmd.Rm k])],
      index := idxRemove s.index k,
      writerPos := s.writerPos + encLen (Cmd.Rm k),
      compactionSize := s.compactionSize + old.len
        + (s.writerPos + encLen (Cmd.Rm k) - s.writerPos) } := by
    unfold removeMid
    dsimp only
    rw [happend]
  have hX : replaySeq s.files ([], 0)
      = loadSeg s.curGen seg (replaySeq files0 ([], 0)) := by
    rw [hdec, replaySeq_append]
    rfl
  have hreplay : replaySeq (files0 ++ [(s.curGen, seg ++ [Cmd.Rm k])]) ([], 0)
      = loadRecs s.curGen [Cmd.Rm k]
          (0 + (segBytes seg).length)
          (replaySeq s.files ([], 0)).1
          (replaySeq s.files ([], 0)).2 := by
    rw [replaySeq_append]
    show loadSeg s.curGen (seg ++ [Cmd.Rm k]) (replaySeq files0 ([], 0)) = _
    unfold loadSeg
    rw [loadRecs_append]
    rw [hX]
    rfl
  have hstep : ∀ (P : Nat) (i : Index) (cs : Nat),
      loadRecs s.curGen [Cmd.Rm k] P i cs
        = (idxRemove i k,
           (match idxGet i k with
            | some old2 => cs + old2.len
            | none => cs) + (P + encLen (Cmd.Rm k) - P)) := by
    intro P i cs
    rw [loadRecs]
    rfl
  rw [hfields]
  refine ⟨?_, ?_, ⟨files0, seg ++ [Cmd.Rm k], rfl⟩, ?_, ?_⟩
  · have := wf_removeMid hW k old
    rw [hfields] at this
    exact this
  · dsimp only
    rw [hdec] at hpair
    rcases List.pairwise_append.mp hpair with ⟨hp0, _, hcross⟩
    refine List.pairwise_append.mpr ⟨hp0, List.pairwise_singleton _ _, ?_⟩
    intro a ha b hb
    simp at hb
    rw [hb]
    exact hcross a ha (s.curGen, seg) (by simp)
  · dsimp only
    rw [hreplay, hstep, hidx]
  · intro hg
    dsimp only at hg ⊢
    rw [hreplay, hstep, hcs hg, hidx, hget, ← hwpos, Nat.zero_add]

theorem sim_maybeRotate {s : KvState} (h : Sim s) : Sim (maybeRotate s) := by
  obtain ⟨hW, hpair, ⟨files0, seg, hdec⟩, hidx, hcs⟩ := h
  by_cases hc : s.compactionSize > s.compactionThreshold
  · have h1 := hW.1
    have hnone : lookupFile s.files (s.curGen + 2) = none := by
      rw [lookupFile_none_iff]
      intro hmem
      rcases List.mem_map.mp hmem with ⟨p, hp, hfst⟩
      have := h1 p hp
      omega
    have hrot : maybeRotate s = { s with
        curGen := s.curGen + 2,
        files := s.files ++ [(s.curGen + 2, [])],
        writerPos := 0,
        compactionSize := 0,
        pending := s.pending ++ [s.curGen + 1] } := by
      unfold maybeRotate
      rw [if_pos hc]
      unfold newLogFile
      rw [hnone]
    rw [hrot]
    refine ⟨?_, ?_, ⟨s.files, [], rfl⟩, ?_, ?_⟩
    · have := wf_maybeRotate hW
      rw [hrot] at this
      exact this
    · dsimp only
      refine List.pairwise_append.mpr ⟨hpair, List.pairwise_singleton _ _, ?_⟩
      intro a ha b hb
      simp at hb
      rw [hb]
      have := h1 a ha
      dsimp only
      omega
    · dsimp only
      rw [replaySeq_append]
      show (replaySeq [(s.curGen + 2, [])] (replaySeq s.files ([], 0))).1 = _
      rw [replaySeq]
      show (replaySeq [] (loadSeg (s.curGen + 2) [] (replaySeq s.files ([], 0)))).1 = _
      rw [replaySeq]
      exact hidx
    · intro hg
      dsimp only at hg
      omega
  · unfold maybeRotate
    rw [if_neg hc]
    exact ⟨hW, hpair, ⟨files0, seg, hdec⟩, hidx, hcs⟩

theorem sim_applyOp {s : KvState} (h : Sim s) (op : KvOp) :
    Sim (applyOp s op) := by
  cases op with
  | set k v => exact sim_maybeRotate (sim_setMid h k v)
  | remove k =>
    show Sim (removeOp s k).1
    unfold removeOp
    cases hget : idxGet s.index k with
    | none => exact h
    | some old => exact sim_maybeRotate (sim_removeMid h k hget)

theorem exec_sim (ops : List KvOp) :
    ∀ (s : KvState), Sim s → Sim (execOps s ops) := by
  induction ops with
  | nil => intro s h; exact h
  | cons op rest ih =>
    intro s h
    rw [execOps]
    exact ih _ (sim_applyOp h op)

theorem sim_openNil : Sim (openOp []) := by
  have h0 : openOp [] = ⟨[(1, [])], [], 1, 0, 0, COMPACTION, 0, []⟩ := by decide
  rw [h0]
  refine ⟨by decide, by decide, ⟨[], [], rfl⟩, rfl, fun _ => rfl⟩

/-- C2 amended: for every sequence of live `set`/`remove` calls executed
from a freshly opened empty directory, replaying the resulting segment
files in ascending generation (`replayAll`, the loop of `KvStore::open`)
rebuilds an index **equal** to the live one — every key maps to its last
surviving `Set` — and, provided no compaction rotation occurred during the
run (the generation is still the initial one), a stale-byte counter equal
to the live one.  (A rotation resets the live counter to 0 while the stale
records remain on disk, so after a rotation the replayed counter may
legitimately exceed the live one; see the counterexample.) -/
theorem C2_replay_rebuilds_state (ops : List KvOp) :
    (replayAll (execOps (openOp []) ops).files).1
      = (execOps (openOp []) ops).index ∧
    ((execOps (openOp []) ops).curGen = 1 →
      (replayAll (execOps (openOp []) ops).files).2
        = (execOps (openOp []) ops).compactionSize) := by
  obtain ⟨hW, hpair, _, hidx, hcs⟩ := exec_sim ops (openOp []) sim_openNil
  rw [replayAll_eq_replaySeq _ hpair]
  exact ⟨hidx, hcs⟩

/-- C2 witness: a run of two sets on distinct keys; no rotation occurs, so
both the index and the counter are rebuilt. -/
theorem C2_witness :
    (replayAll (execOps (openOp [])
        [KvOp.set "a" "1", KvOp.set "b" "2"]).files).1
      = (execOps (openOp []) [KvOp.set "a" "1", KvOp.set "b" "2"]).index ∧
    (replayAll (execOps (openOp [])
        [KvOp.set "a" "1", KvOp.set "b" "2"]).files).2
      = (execOps (openOp [])
          [KvOp.set "a" "1", KvOp.set "b" "2"]).compactionSize :=
  ⟨(C2_replay_rebuilds_state [KvOp.set "a" "1", KvOp.set "b" "2"]).1,
   (C2_replay_rebuilds_state [KvOp.set "a" "1", KvOp.set "b" "2"]).2 (by decide)⟩

end SimpleKv
